import Mathlib

/-!
# Decision engine of `lista3/game_client_minimax2.c`

A shallow embedding of the evaluator, the alpha-beta search and the move
selector of the 5x5 game client, with the properties of its specification.

* The global `int board[5][5]` is the explicit state `Board`; functions that
  write it return the board they leave behind.
* `board.h` is not part of the sources at hand.  Its line tables `win`
  (28 x 4 cells) and `lose` (48 x 3 cells) and its predicates `winCheck`,
  `loseCheck` are the fields of `Rules`, and every result holds for all of them.
* C `int` is `Int`.  All scores stay far inside the 32-bit range (shown
  below); `depth` and `player` are used below the magnitudes where `depth - 1`
  or `3 - player` could overflow.
* Recursion of `minimax` is bounded by a fuel argument; `none` means the fuel
  ran out or an array was indexed out of bounds.
-/

namespace WSI

/-- The global `int board[5][5]`. -/
abbrev Board := Fin 5 → Fin 5 → Int

/-- The assignment `board[i][j] = v`. -/
def Board.set (b : Board) (i j : Fin 5) (v : Int) : Board :=
  fun r c => if r = i ∧ c = j then v else b r c

/-- The read `board[row][col]` with `int` indices: `none` when an index is
outside `0..4`. -/
def Board.read (b : Board) (row col : Int) : Option Int :=
  if h : 0 ≤ row ∧ row < 5 ∧ 0 ≤ col ∧ col < 5 then
    some (b ⟨row.toNat, by omega⟩ ⟨col.toNat, by omega⟩)
  else none

/-- What `board.h` provides: the tables `win[28][4][2]` and `lose[48][3][2]`
of board coordinates, the predicates `winCheck` and `loseCheck` (which read
the board and a player), and the global `playerNumber` set once in `main`. -/
structure Rules where
  win : Fin 28 → Fin 4 → Fin 5 × Fin 5
  lose : Fin 48 → Fin 3 → Fin 5 × Fin 5
  winCheck : Board → Int → Bool
  loseCheck : Board → Int → Bool
  playerNumber : Int

/-- The constant `MAX_SCORE` of the source, `1000000`. -/
def MAX_SCORE : Int := 1000000

/-- Counters of the inner loop of `countFours`. -/
structure FourScan where
  occupied : Nat
  empty : Nat
  blocked : Bool

/-- Inner loop of `countFours` over the cells of one line: `break` at the first
cell that is neither the player's nor empty. -/
def scanFour (b : Board) (player : Int) : List (Fin 5 × Fin 5) → FourScan → FourScan
  | [], s => s
  | xy :: rest, s =>
    if b xy.1 xy.2 = player then
      scanFour b player rest { s with occupied := s.occupied + 1 }
    else if b xy.1 xy.2 = 0 then
      scanFour b player rest { s with empty := s.empty + 1 }
    else
      { s with blocked := true }

/-- Source function `int countFours(int player)`. -/
def countFours (R : Rules) (b : Board) (player : Int) : Nat :=
  (List.finRange 28).foldl
    (fun count i =>
      let s := scanFour b player (List.ofFn (R.win i)) ⟨0, 0, false⟩
      if !s.blocked && s.occupied == 3 && s.empty == 1 then count + 1 else count)
    0

/-- Inner loop of `countThrees` over the cells of one line. -/
def scanThree (b : Board) (player : Int) : List (Fin 5 × Fin 5) → Nat → Nat
  | [], occupied => occupied
  | xy :: rest, occupied =>
    if b xy.1 xy.2 = player then scanThree b player rest (occupied + 1)
    else scanThree b player rest occupied

/-- Source function `int countThrees(int player)`. -/
def countThrees (R : Rules) (b : Board) (player : Int) : Nat :=
  (List.finRange 48).foldl
    (fun count i =>
      let occupied := scanThree b player (List.ofFn (R.lose i)) 0
      if occupied == 3 then count + 1 else count)
    0

/-- Source function `int heuristicScore(int player)`. -/
def heuristicScore (R : Rules) (b : Board) (player : Int) : Int :=
  let score : Int := 0
  let opponent := 3 - player
  let score := score + (countFours R b player : Int) * 10000
  let score := score - (countFours R b opponent : Int) * 15000
  let score := score - (countThrees R b player : Int) * 1000
  let score := score + (countThrees R b opponent : Int) * 500
  score

/-- Source function `int evaluateBoard(int player)`. -/
def evaluateBoard (R : Rules) (b : Board) (player : Int) : Int :=
  let opponent := 3 - player
  if R.winCheck b player then MAX_SCORE
  else if R.winCheck b opponent then -MAX_SCORE
  else if R.loseCheck b player then -MAX_SCORE
  else if R.loseCheck b opponent then MAX_SCORE
  else heuristicScore R b player

/-- Source function `bool isMoveValid(int move)`; `/` and `%` of C truncate toward zero.
The result is `none` if the board is read outside its bounds. -/
def isMoveValid (b : Board) (move : Int) : Option Bool :=
  let row := Int.tdiv move 10 - 1
  let col := Int.tmod move 10 - 1
  if row < 0 ∨ row > 4 ∨ col < 0 ∨ col > 4 then some false
  else (b.read row col).map (fun cell => cell == 0)

/-- Source function `int countEmptyCells()`. -/
def countEmptyCells (b : Board) : Nat :=
  (List.finRange 5).foldl
    (fun count i =>
      (List.finRange 5).foldl (fun count j => if b i j = 0 then count + 1 else count) count)
    0

/-- Local variables `bestVal`, `alpha`, `beta` of `minimax`, with the board. -/
structure Search where
  board : Board
  bestVal : Int
  alpha : Int
  beta : Int

/-- The updates of `bestVal`, `alpha` and `beta` in `minimax` once the
recursive call has returned `value`. -/
def Search.update (s : Search) (maximizing : Bool) (value : Int) : Search :=
  if maximizing then
    let bestVal := if value > s.bestVal then value else s.bestVal
    let alpha := if bestVal > s.alpha then bestVal else s.alpha
    { s with bestVal := bestVal, alpha := alpha }
  else
    let bestVal := if value < s.bestVal then value else s.bestVal
    let beta := if bestVal < s.beta then bestVal else s.beta
    { s with bestVal := bestVal, beta := beta }

/-- Inner loop `for (col ...)` of `minimax` in row `i + 1`, over the remaining
columns `j + 1`.  `child b a be` is the recursive call on board `b` with
window `a`, `be`.  The `break` leaves this loop only. -/
def minimaxCols (child : Board → Int → Int → Option (Int × Board)) (maximizing : Bool)
    (player : Int) (i : Fin 5) : List (Fin 5) → Search → Option Search
  | [], s => some s
  | j :: js, s =>
    let move : Int := ((i.val : Int) + 1) * 10 + ((j.val : Int) + 1)
    match isMoveValid s.board move with
    | none => none
    | some false => minimaxCols child maximizing player i js s
    | some true =>
      match child (s.board.set i j player) s.alpha s.beta with
      | none => none
      | some (value, b1) =>
        let s1 := Search.update { s with board := b1.set i j 0 } maximizing value
        if s1.beta ≤ s1.alpha then some s1
        else minimaxCols child maximizing player i js s1

/-- Outer loop `for (row ...)` of `minimax`. -/
def minimaxRows (child : Board → Int → Int → Option (Int × Board)) (maximizing : Bool)
    (player : Int) : List (Fin 5) → Search → Option Search
  | [], s => some s
  | i :: is, s =>
    match minimaxCols child maximizing player i (List.finRange 5) s with
    | none => none
    | some s1 => minimaxRows child maximizing player is s1

/-- Source function
`int minimax(int depth, bool maximizing, int player, int alpha, int beta)` on
board `b`, returning the value and the board left behind. -/
def minimax (R : Rules) : Nat → Board → Int → Bool → Int → Int → Int → Option (Int × Board)
  | 0, _, _, _, _, _, _ => none
  | fuel + 1, b, depth, maximizing, player, alpha, beta =>
    let opponent := 3 - player
    if depth = 0 ∨ R.winCheck b player = true ∨ R.loseCheck b player = true
        ∨ R.winCheck b opponent = true ∨ R.loseCheck b opponent = true then
      some (evaluateBoard R b R.playerNumber, b)
    else
      let bestVal := if maximizing then -MAX_SCORE else MAX_SCORE
      match minimaxRows
          (fun b1 a1 be1 => minimax R fuel b1 (depth - 1) (!maximizing) opponent a1 be1)
          maximizing player (List.finRange 5) ⟨b, bestVal, alpha, beta⟩ with
      | none => none
      | some s => some (s.bestVal, s.board)

/-- Inner loop of the search without cutoff: every empty cell of row `i` among
the columns given is tried on a copy of the board. -/
def fullCols (child : Board → Option Int) (maximizing : Bool) (player : Int) (b : Board)
    (i : Fin 5) : List (Fin 5) → Int → Option Int
  | [], bestVal => some bestVal
  | j :: js, bestVal =>
    if b i j = 0 then
      match child (b.set i j player) with
      | none => none
      | some value =>
        fullCols child maximizing player b i js
          (if maximizing then (if value > bestVal then value else bestVal)
           else (if value < bestVal then value else bestVal))
    else fullCols child maximizing player b i js bestVal

/-- Outer loop of the search without cutoff. -/
def fullRows (child : Board → Option Int) (maximizing : Bool) (player : Int) (b : Board) :
    List (Fin 5) → Int → Option Int
  | [], bestVal => some bestVal
  | i :: is, bestVal =>
    match fullCols child maximizing player b i (List.finRange 5) bestVal with
    | none => none
    | some v => fullRows child maximizing player b is v

/-- Unpruned full minimax as the specification words it: the recursion of
`minimax` with the same terminal test, the same leaf evaluation from the
perspective of `playerNumber` and the same initial sentinels, but without
`alpha`, `beta` and without any cutoff. -/
def minimaxFull (R : Rules) : Nat → Board → Int → Bool → Int → Option Int
  | 0, _, _, _, _ => none
  | fuel + 1, b, depth, maximizing, player =>
    let opponent := 3 - player
    if depth = 0 ∨ R.winCheck b player = true ∨ R.loseCheck b player = true
        ∨ R.winCheck b opponent = true ∨ R.loseCheck b opponent = true then
      some (evaluateBoard R b R.playerNumber)
    else
      fullRows (fun b1 => minimaxFull R fuel b1 (depth - 1) (!maximizing) opponent)
        maximizing player b (List.finRange 5) (if maximizing then -MAX_SCORE else MAX_SCORE)

/-- Local variables `bestVal`, `bestMoves`, `count` of `getBestMove`, with the
board. -/
structure Pick where
  board : Board
  bestVal : Int
  bestMoves : List Int
  count : Nat

/-- The write `bestMoves[idx] = v`: `none` when `idx` is outside the array. -/
def writeAt (xs : List Int) (idx : Nat) (v : Int) : Option (List Int) :=
  if idx < xs.length then some (xs.set idx v) else none

/-- Inner loop `for (j ...)` of `getBestMove` in row `i + 1`; `search b` is the
call `minimax(depth - 1, false, 3 - player, -MAX_SCORE, MAX_SCORE)` on board `b`. -/
def pickCols (search : Board → Option (Int × Board)) (player : Int) (i : Fin 5) :
    List (Fin 5) → Pick → Option Pick
  | [], s => some s
  | j :: js, s =>
    let move : Int := ((i.val : Int) + 1) * 10 + ((j.val : Int) + 1)
    match isMoveValid s.board move with
    | none => none
    | some false => pickCols search player i js s
    | some true =>
      match search (s.board.set i j player) with
      | none => none
      | some (value, b1) =>
        let b2 := b1.set i j 0
        if value > s.bestVal then
          match writeAt s.bestMoves 0 move with
          | none => none
          | some bm =>
            pickCols search player i js
              { board := b2, bestVal := value, bestMoves := bm, count := 1 }
        else if value = s.bestVal then
          match writeAt s.bestMoves s.count move with
          | none => none
          | some bm =>
            pickCols search player i js
              { board := b2, bestVal := s.bestVal, bestMoves := bm, count := s.count + 1 }
        else pickCols search player i js { s with board := b2 }

/-- Outer loop `for (i ...)` of `getBestMove`. -/
def pickRows (search : Board → Option (Int × Board)) (player : Int) :
    List (Fin 5) → Pick → Option Pick
  | [], s => some s
  | i :: is, s =>
    match pickCols search player i (List.finRange 5) s with
    | none => none
    | some s1 => pickRows search player is s1

/-- The loop over `corners` in `getBestMove`: the first valid corner, if any. -/
def firstValid (b : Board) : List Int → Option (Option Int)
  | [] => some none
  | m :: ms =>
    match isMoveValid b m with
    | none => none
    | some true => some (some m)
    | some false => firstValid b ms

/-- The scan of `getBestMove` after the opening branch, up to the state in
which the random draw is made. -/
def scanMoves (search : Board → Int → Bool → Int → Int → Int → Option (Int × Board))
    (b : Board) (player depth : Int) (junk : Fin 25 → Int) : Option Pick :=
  pickRows (fun b1 => search b1 (depth - 1) false (3 - player) (-MAX_SCORE) MAX_SCORE)
    player (List.finRange 5)
    { board := b, bestVal := -MAX_SCORE, bestMoves := List.ofFn junk, count := 0 }

/-- The end of `getBestMove`: the draw `bestMoves[rand() % count]`, or `-1`. -/
def drawMove (s : Pick) (rnd : Nat) : Option (Int × Board) :=
  if s.count > 0 then
    match s.bestMoves.get? (rnd % s.count) with
    | none => none
    | some m => some (m, s.board)
  else some (-1, s.board)

/-- The opening branch of `getBestMove`: `some (some m)` when it returns the
move `m`, `some none` when it falls through to the scan. -/
def openingMove (b : Board) : Option (Option Int) :=
  let middle : Int := 33
  let corners : List Int := [11, 15, 51, 55]
  if countEmptyCells b ≥ 24 then
    match isMoveValid b middle with
    | none => none
    | some true => some (some middle)
    | some false => firstValid b corners
  else some none

/-- Source function `int getBestMove(int player, int depth)` with the search function as a
parameter.  `junk` is the uninitialised content of `bestMoves[25]` and `rnd`
the value returned by `rand()`. -/
def getBestMoveWith (search : Board → Int → Bool → Int → Int → Int → Option (Int × Board))
    (b : Board) (player depth : Int) (junk : Fin 25 → Int) (rnd : Nat) :
    Option (Int × Board) :=
  match openingMove b with
  | none => none
  | some (some m) => some (m, b)
  | some none =>
    match scanMoves search b player depth junk with
    | none => none
    | some s => drawMove s rnd

/-- Source function `getBestMove`, calling `minimax` with the given fuel. -/
def getBestMove (R : Rules) (fuel : Nat) (b : Board) (player depth : Int)
    (junk : Fin 25 → Int) (rnd : Nat) : Option (Int × Board) :=
  getBestMoveWith (minimax R fuel) b player depth junk rnd

/-! ### A concrete ruleset and boards, to evaluate the definitions on examples -/

/-- Cell number `j` of the window that starts at `(r, c)` and runs to the right
(`kind = 0`), down (`1`), down-right (`2`) or down-left (otherwise). -/
def windowCell (kind r c j : Nat) : Fin 5 × Fin 5 :=
  match kind with
  | 0 => (Fin.ofNat r, Fin.ofNat (c + j))
  | 1 => (Fin.ofNat (r + j), Fin.ofNat c)
  | 2 => (Fin.ofNat (r + j), Fin.ofNat (c + j))
  | _ => (Fin.ofNat (r + j), Fin.ofNat (c - j))

/-- Kind and first cell of the 28 windows of four cells in a 5x5 grid. -/
def fourStarts : List (Nat × Nat × Nat) :=
  [(0,0,0), (0,0,1), (0,1,0), (0,1,1), (0,2,0), (0,2,1), (0,3,0), (0,3,1), (0,4,0), (0,4,1),
   (1,0,0), (1,0,1), (1,0,2), (1,0,3), (1,0,4), (1,1,0), (1,1,1), (1,1,2), (1,1,3), (1,1,4),
   (2,0,0), (2,0,1), (2,1,0), (2,1,1), (3,0,3), (3,0,4), (3,1,3), (3,1,4)]

/-- Kind and first cell of the 48 windows of three cells in a 5x5 grid. -/
def threeStarts : List (Nat × Nat × Nat) :=
  [(0,0,0), (0,0,1), (0,0,2), (0,1,0), (0,1,1), (0,1,2), (0,2,0), (0,2,1), (0,2,2),
   (0,3,0), (0,3,1), (0,3,2), (0,4,0), (0,4,1), (0,4,2),
   (1,0,0), (1,0,1), (1,0,2), (1,0,3), (1,0,4), (1,1,0), (1,1,1), (1,1,2), (1,1,3), (1,1,4),
   (1,2,0), (1,2,1), (1,2,2), (1,2,3), (1,2,4),
   (2,0,0), (2,0,1), (2,0,2), (2,1,0), (2,1,1), (2,1,2), (2,2,0), (2,2,1), (2,2,2),
   (3,0,2), (3,0,3), (3,0,4), (3,1,2), (3,1,3), (3,1,4), (3,2,2), (3,2,3), (3,2,4)]

/-- The windows of four cells as a table `win`. -/
def sampleWin (i : Fin 28) (j : Fin 4) : Fin 5 × Fin 5 :=
  match fourStarts.get? i.val with
  | some (kind, r, c) => windowCell kind r c j.val
  | none => (0, 0)

/-- The windows of three cells as a table `lose`. -/
def sampleLose (i : Fin 48) (j : Fin 3) : Fin 5 × Fin 5 :=
  match threeStarts.get? i.val with
  | some (kind, r, c) => windowCell kind r c j.val
  | none => (0, 0)

/-- A ruleset for examples: the lines are the windows of four and of three
cells; a player wins with a window of four of their stones and loses with a
window of three; the engine plays as `me`. -/
def sampleRules (me : Int) : Rules where
  win := sampleWin
  lose := sampleLose
  winCheck b player :=
    (List.finRange 28).any fun i => (List.finRange 4).all fun j =>
      decide (b (sampleWin i j).1 (sampleWin i j).2 = player)
  loseCheck b player :=
    (List.finRange 48).any fun i => (List.finRange 3).all fun j =>
      decide (b (sampleLose i j).1 (sampleLose i j).2 = player)
  playerNumber := me

/-- A board given by its rows; cells that are not listed are empty. -/
def boardOf (rows : List (List Int)) : Board :=
  fun i j => (rows.getD i.val []).getD j.val 0

/-- The empty board. -/
def emptyBoard : Board := fun _ _ => 0

/-- The number `F(q)` of the specification: the four-lines that contain
exactly three cells equal to `q`, exactly one empty cell and no cell of the
other player `3 - q`. -/
def specFours (R : Rules) (b : Board) (q : Int) : Nat :=
  (Finset.univ.filter fun i : Fin 28 =>
    (Finset.univ.filter fun j : Fin 4 => b (R.win i j).1 (R.win i j).2 = q).card = 3 ∧
    (Finset.univ.filter fun j : Fin 4 => b (R.win i j).1 (R.win i j).2 = 0).card = 1 ∧
    ∀ j : Fin 4, b (R.win i j).1 (R.win i j).2 ≠ 3 - q).card

/-- The number `T(q)` of the specification: the three-lines whose three cells
all equal `q`. -/
def specThrees (R : Rules) (b : Board) (q : Int) : Nat :=
  (Finset.univ.filter fun i : Fin 48 =>
    ∀ j : Fin 3, b (R.lose i j).1 (R.lose i j).2 = q).card

/-- The values that `heuristicScore` computes on its way: each product and
each value assigned to `score`. -/
def heuristicSteps (R : Rules) (b : Board) (player : Int) : List Int :=
  let opponent := 3 - player
  let p1 := (countFours R b player : Int) * 10000
  let s1 := 0 + p1
  let p2 := (countFours R b opponent : Int) * 15000
  let s2 := s1 - p2
  let p3 := (countThrees R b player : Int) * 1000
  let s3 := s2 - p3
  let p4 := (countThrees R b opponent : Int) * 500
  let s4 := s3 + p4
  [opponent, p1, s1, p2, s2, p3, s3, p4, s4]

/-- Number of empty cells of a board, as the size of a set. -/
def emptyCard (b : Board) : Nat :=
  (Finset.univ.filter fun x : Fin 5 × Fin 5 => b x.1 x.2 = 0).card

/-- A bound on the number of nested `minimax` calls: a call with a player other
than `0` fills a cell, a call with player `0` is followed by one with player `3`. -/
def searchMeasure (b : Board) (player : Int) : Nat :=
  2 * emptyCard b + (if player = 0 then 1 else 0)

/-- The recursive calls made from a node with board `b` and mover `p` return,
restore the board they were given and stay within the score range. -/
def ChildFrame (child : Board → Int → Int → Option (Int × Board)) (b : Board) (p : Int) : Prop :=
  ∀ i j, b i j = 0 → ∀ a be, ∃ v,
    child (b.set i j p) a be = some (v, b.set i j p) ∧ -MAX_SCORE ≤ v ∧ v ≤ MAX_SCORE

/-- How the value `v` of a search with window `(a, be)` relates to the exact
value `w`: equal inside the window, and on the same side outside it. -/
def Related (a be v w : Int) : Prop :=
  (w ≤ a → v ≤ a) ∧ (be ≤ w → be ≤ v) ∧ (a < w → w < be → v = w)

/-- The recursive calls made from a node with board `b` and mover `p` agree,
in the sense of `Related`, with the calls of the search without cutoff. -/
def ChildExact (child : Board → Int → Int → Option (Int × Board)) (fchild : Board → Option Int)
    (b : Board) (p : Int) : Prop :=
  ∀ i j, b i j = 0 → ∃ w, fchild (b.set i j p) = some w ∧ -MAX_SCORE ≤ w ∧ w ≤ MAX_SCORE ∧
    ∀ a be, -MAX_SCORE ≤ a → a < be → be ≤ MAX_SCORE → ∀ v bd,
      child (b.set i j p) a be = some (v, bd) → Related a be v w

/-- Loop invariant tying the state `s` of the pruned loops at a node called
with window `(a, be)` to the running value `fb` of the loops without cutoff:
either no cutoff has happened and the two agree above `a` (below `be` for a
minimizing node), or both have already left the window. -/
def Lockstep (m : Bool) (a be : Int) (s : Search) (fb : Int) : Prop :=
  if m then
    s.beta = be ∧ ((s.alpha < be ∧ s.alpha = max a s.bestVal ∧ s.alpha = max a fb)
      ∨ (be ≤ s.bestVal ∧ be ≤ fb))
  else
    s.alpha = a ∧ ((a < s.beta ∧ s.beta = min be s.bestVal ∧ s.beta = min be fb)
      ∨ (s.bestVal ≤ a ∧ fb ≤ a))

/-- The move `row * 10 + col` (1-based) of the cell `c` (0-based). -/
def encodeMove (c : Fin 5 × Fin 5) : Int := ((c.1.val : Int) + 1) * 10 + ((c.2.val : Int) + 1)

/-- The empty cells of row `i` among the columns `js`, in order. -/
def legalInRow (b : Board) (i : Fin 5) (js : List (Fin 5)) : List (Fin 5 × Fin 5) :=
  (js.filter fun j => decide (b i j = 0)).map fun j => (i, j)

/-- The empty cells of the rows `is`, in row-major order. -/
def legalInRows (b : Board) (is : List (Fin 5)) : List (Fin 5 × Fin 5) :=
  is.flatMap fun i => legalInRow b i (List.finRange 5)

/-- The legal moves of a board, in row-major order. -/
def legalMoves (b : Board) : List (Fin 5 × Fin 5) := legalInRows b (List.finRange 5)

/-- Invariant of the scan of `getBestMove` after the legal moves `done` have
been valued by `val`: `bestVal` is the largest value seen (the sentinel if none
was), and `bestMoves[0..count)` holds the moves seen with that value, in order. -/
def PickInv (b : Board) (val : Fin 5 × Fin 5 → Int) (s : Pick) (done : List (Fin 5 × Fin 5)) :
    Prop :=
  s.board = b ∧ s.bestMoves.length = 25 ∧ -MAX_SCORE ≤ s.bestVal ∧
  (∀ c ∈ done, val c ≤ s.bestVal) ∧
  ((done = [] ∧ s.bestVal = -MAX_SCORE) ∨ ∃ c ∈ done, val c = s.bestVal) ∧
  s.count = (done.filter fun c => decide (val c = s.bestVal)).length ∧
  s.bestMoves.take s.count = (done.filter fun c => decide (val c = s.bestVal)).map encodeMove

/-- The value that `getBestMove` obtains for the legal move `c`: the result of
`minimax(depth - 1, false, 3 - player, -MAX_SCORE, MAX_SCORE)` after the stone
of `player` has been placed on `c`. -/
def rootValue (R : Rules) (fuel : Nat) (b : Board) (player depth : Int) (c : Fin 5 × Fin 5) :
    Int :=
  match minimax R fuel (b.set c.1 c.2 player) (depth - 1) false (3 - player)
      (-MAX_SCORE) MAX_SCORE with
  | some r => r.1
  | none => 0

/-- The legal moves whose value is the maximum over all legal moves, in
row-major order. -/
def bestRootMoves (R : Rules) (fuel : Nat) (b : Board) (player depth : Int) :
    List (Fin 5 × Fin 5) :=
  (legalMoves b).filter fun c => (legalMoves b).all fun c1 =>
    decide (rootValue R fuel b player depth c1 ≤ rootValue R fuel b player depth c)

/-- A position after six moves, player 1 to move. -/
def midBoard : Board := boardOf [[1, 2, 0, 0, 0], [0, 1, 2, 0, 0], [0, 0, 2, 1, 0]]

/-- A board without an empty cell. -/
def fullBoard : Board :=
  boardOf [[1, 2, 1, 2, 1], [2, 1, 2, 1, 2], [2, 1, 2, 1, 2], [1, 2, 1, 2, 1], [1, 2, 1, 2, 1]]

/-- A position with ten stones of each player and five empty cells, player 1
to move: the move 15 gives a near-four, the move 43 completes a four. -/
def cutBoard : Board :=
  boardOf [[1, 2, 1, 2, 0], [1, 2, 1, 2, 2], [2, 1, 0, 0, 1], [2, 1, 0, 0, 1], [1, 2, 2, 1, 2]]

/-- A full board on which nobody has three in a line. -/
def drawBoard : Board :=
  boardOf [[1, 1, 2, 2, 1], [2, 2, 1, 1, 2], [1, 1, 2, 2, 1], [2, 2, 1, 1, 2], [1, 1, 2, 2, 1]]

/-- The board after a single stone of player 2 on the centre. -/
def centreBoard : Board := emptyBoard.set 2 2 2

/-! ## Properties -/

theorem foldl_count {α : Type} (p : α → Prop) [DecidablePred p] (l : List α) (c : Nat) :
    l.foldl (fun count i => if p i then count + 1 else count) c = c + l.countP (fun i => decide (p i)) := by
  induction l generalizing c with
  | nil => simp
  | cons a l ih =>
    simp only [List.foldl_cons, ih, List.countP_cons]
    by_cases h : p a <;> simp [h]; omega

theorem card_filter_fin (n : Nat) (p : Fin n → Prop) [DecidablePred p] :
    (Finset.univ.filter p).card = (List.finRange n).countP (fun i => decide (p i)) := by
  rw [Fin.univ_def]
  simp [Finset.card, Finset.filter, List.countP_eq_length_filter]

theorem countFours_le (R : Rules) (b : Board) (q : Int) : countFours R b q ≤ 28 := by
  unfold countFours
  have := foldl_count (fun i : Fin 28 =>
    (!(scanFour b q (List.ofFn (R.win i)) ⟨0, 0, false⟩).blocked
      && (scanFour b q (List.ofFn (R.win i)) ⟨0, 0, false⟩).occupied == 3
      && (scanFour b q (List.ofFn (R.win i)) ⟨0, 0, false⟩).empty == 1) = true) (List.finRange 28) 0
  simp only at this ⊢
  rw [this]
  have h2 := List.countP_le_length (l := List.finRange 28) (fun i : Fin 28 => decide
    ((!(scanFour b q (List.ofFn (R.win i)) ⟨0, 0, false⟩).blocked
      && (scanFour b q (List.ofFn (R.win i)) ⟨0, 0, false⟩).occupied == 3
      && (scanFour b q (List.ofFn (R.win i)) ⟨0, 0, false⟩).empty == 1) = true))
  simp only [List.length_finRange] at h2
  omega

theorem countThrees_le (R : Rules) (b : Board) (q : Int) : countThrees R b q ≤ 48 := by
  unfold countThrees
  have := foldl_count (fun i : Fin 48 =>
    (scanThree b q (List.ofFn (R.lose i)) 0 == 3) = true) (List.finRange 48) 0
  simp only at this ⊢
  rw [this]
  have h2 := List.countP_le_length (l := List.finRange 48) (fun i : Fin 48 => decide
    ((scanThree b q (List.ofFn (R.lose i)) 0 == 3) = true))
  simp only [List.length_finRange] at h2
  omega

theorem heuristicScore_bounds (R : Rules) (b : Board) (p : Int) :
    -468000 ≤ heuristicScore R b p ∧ heuristicScore R b p ≤ 304000 ∧
    heuristicScore R b p ≠ 1000000 ∧ heuristicScore R b p ≠ -1000000 := by
  have h1 := countFours_le R b p
  have h2 := countFours_le R b (3 - p)
  have h3 := countThrees_le R b p
  have h4 := countThrees_le R b (3 - p)
  simp only [heuristicScore]
  omega

theorem scanFour_clean (b : Board) (q : Int) (l : List (Fin 5 × Fin 5)) (s : FourScan)
    (hl : ∀ xy ∈ l, b xy.1 xy.2 = q ∨ b xy.1 xy.2 = 0) :
    scanFour b q l s =
      ⟨s.occupied + l.countP (fun xy => decide (b xy.1 xy.2 = q)),
       s.empty + l.countP (fun xy => decide (b xy.1 xy.2 ≠ q ∧ b xy.1 xy.2 = 0)), s.blocked⟩ := by
  induction l generalizing s with
  | nil => simp [scanFour]
  | cons a l ih =>
    have hl2 : ∀ xy ∈ l, b xy.1 xy.2 = q ∨ b xy.1 xy.2 = 0 :=
      fun xy h => hl xy (List.mem_cons_of_mem _ h)
    have ha := hl a (List.mem_cons_self _ _)
    by_cases h1 : b a.1 a.2 = q
    · have d1 : decide (b a.1 a.2 = q) = true := by simp [h1]
      have d2 : decide (b a.1 a.2 ≠ q ∧ b a.1 a.2 = 0) = false := by simp [h1]
      rw [scanFour, if_pos h1, ih _ hl2, List.countP_cons, List.countP_cons, d1, d2]
      simp [Nat.add_assoc, Nat.add_comm]
    · have h0 : b a.1 a.2 = 0 := ha.resolve_left h1
      have d1 : decide (b a.1 a.2 = q) = false := by simp [h1]
      have d2 : decide (b a.1 a.2 ≠ q ∧ b a.1 a.2 = 0) = true := by
        rw [decide_eq_true_eq]; exact ⟨h1, h0⟩
      rw [scanFour, if_neg h1, if_pos h0, ih _ hl2, List.countP_cons, List.countP_cons, d1, d2]
      simp [Nat.add_assoc, Nat.add_comm]

theorem scanFour_blocked (b : Board) (q : Int) (l : List (Fin 5 × Fin 5)) (s : FourScan)
    (hl : ∃ xy ∈ l, b xy.1 xy.2 ≠ q ∧ b xy.1 xy.2 ≠ 0) :
    (scanFour b q l s).blocked = true := by
  induction l generalizing s with
  | nil => simp at hl
  | cons a l ih =>
    by_cases h1 : b a.1 a.2 = q
    · rw [scanFour, if_pos h1]
      apply ih
      obtain ⟨xy, hm, hx⟩ := hl
      rcases List.mem_cons.1 hm with rfl | hm
      · exact absurd h1 hx.1
      · exact ⟨xy, hm, hx⟩
    · by_cases h0 : b a.1 a.2 = 0
      · rw [scanFour, if_neg h1, if_pos h0]
        apply ih
        obtain ⟨xy, hm, hx⟩ := hl
        rcases List.mem_cons.1 hm with rfl | hm
        · exact absurd h0 hx.2
        · exact ⟨xy, hm, hx⟩
      · rw [scanFour, if_neg h1, if_neg h0]

theorem countP_disjoint_le {α : Type} (l : List α) (p z : α → Bool)
    (hd : ∀ x ∈ l, ¬ (p x = true ∧ z x = true)) :
    l.countP p + l.countP z ≤ l.length := by
  induction l with
  | nil => simp
  | cons a l ih =>
    have hl := ih (fun y hy => hd y (List.mem_cons_of_mem _ hy))
    have hda := hd a (List.mem_cons_self _ _)
    rw [List.countP_cons, List.countP_cons, List.length_cons]
    by_cases h1 : p a = true <;> by_cases h2 : z a = true
    · exact absurd ⟨h1, h2⟩ hda
    · rw [if_pos h1, if_neg h2]; omega
    · rw [if_neg h1, if_pos h2]; omega
    · rw [if_neg h1, if_neg h2]; omega

theorem countP_disjoint_full {α : Type} (l : List α) (p z : α → Bool)
    (hd : ∀ x ∈ l, ¬ (p x = true ∧ z x = true))
    (hsum : l.countP p + l.countP z = l.length) : ∀ x ∈ l, p x = true ∨ z x = true := by
  induction l with
  | nil => simp
  | cons a l ih =>
    have hp := countP_disjoint_le l p z (fun y hy => hd y (List.mem_cons_of_mem _ hy))
    have hda := hd a (List.mem_cons_self _ _)
    rw [List.countP_cons, List.countP_cons, List.length_cons] at hsum
    intro x hx
    rcases List.mem_cons.1 hx with rfl | hx
    · by_cases h1 : p x = true
      · exact Or.inl h1
      · by_cases h2 : z x = true
        · exact Or.inr h2
        · rw [if_neg h1, if_neg h2] at hsum
          omega
    · apply ih (fun y hy => hd y (List.mem_cons_of_mem _ hy)) _ x hx
      by_cases h1 : p a = true <;> by_cases h2 : z a = true
      · exact absurd ⟨h1, h2⟩ hda
      · rw [if_pos h1, if_neg h2] at hsum; omega
      · rw [if_neg h1, if_pos h2] at hsum; omega
      · rw [if_neg h1, if_neg h2] at hsum; omega

/-- One line of `countFours` against the wording of the specification. -/
theorem scanFour_line (b : Board) (q : Int) (hq : q ≠ 3) (w : Fin 4 → Fin 5 × Fin 5) :
    ((!(scanFour b q (List.ofFn w) ⟨0, 0, false⟩).blocked
      && (scanFour b q (List.ofFn w) ⟨0, 0, false⟩).occupied == 3
      && (scanFour b q (List.ofFn w) ⟨0, 0, false⟩).empty == 1) = true) ↔
    ((Finset.univ.filter fun j : Fin 4 => b (w j).1 (w j).2 = q).card = 3 ∧
     (Finset.univ.filter fun j : Fin 4 => b (w j).1 (w j).2 = 0).card = 1 ∧
     ∀ j : Fin 4, b (w j).1 (w j).2 ≠ 3 - q) := by
  have hc1 : (Finset.univ.filter fun j : Fin 4 => b (w j).1 (w j).2 = q).card =
      (List.ofFn w).countP (fun xy => decide (b xy.1 xy.2 = q)) := by
    rw [card_filter_fin, List.ofFn_eq_map, List.countP_map]; rfl
  have hc2 : (Finset.univ.filter fun j : Fin 4 => b (w j).1 (w j).2 = 0).card =
      (List.ofFn w).countP (fun xy => decide (b xy.1 xy.2 = 0)) := by
    rw [card_filter_fin, List.ofFn_eq_map, List.countP_map]; rfl
  have hall : (∀ j : Fin 4, b (w j).1 (w j).2 ≠ 3 - q) ↔
      ∀ xy ∈ List.ofFn w, b xy.1 xy.2 ≠ 3 - q := by
    constructor
    · intro h xy hxy
      obtain ⟨j, rfl⟩ := (List.mem_ofFn _ _).1 hxy
      exact h j
    · intro h j
      exact h _ ((List.mem_ofFn _ _).2 ⟨j, rfl⟩)
  have hlen : (List.ofFn w).length = 4 := by simp
  rw [hc1, hc2, hall]
  generalize List.ofFn w = l at hlen ⊢
  by_cases hclean : ∀ xy ∈ l, b xy.1 xy.2 = q ∨ b xy.1 xy.2 = 0
  · rw [scanFour_clean b q l _ hclean]
    simp only [Bool.not_false, Bool.true_and, Nat.zero_add, Bool.and_eq_true, beq_iff_eq]
    by_cases hq0 : q = 0
    · subst hq0
      have : l.countP (fun xy => decide (b xy.1 xy.2 ≠ 0 ∧ b xy.1 xy.2 = 0)) = 0 := by
        rw [List.countP_eq_zero]; intro x _; simp
      rw [this]
      constructor
      · intro h; omega
      · intro h; omega
    · have hez : l.countP (fun xy => decide (b xy.1 xy.2 ≠ q ∧ b xy.1 xy.2 = 0)) =
          l.countP (fun xy => decide (b xy.1 xy.2 = 0)) := by
        apply List.countP_congr
        intro x _
        simp only [decide_eq_true_eq]
        constructor
        · exact fun h => h.2
        · intro h; exact ⟨by omega, h⟩
      rw [hez]
      constructor
      · rintro ⟨h1, h2⟩
        refine ⟨h1, h2, ?_⟩
        intro xy hxy
        rcases hclean xy hxy with h | h <;> omega
      · rintro ⟨h1, h2, _⟩
        exact ⟨h1, h2⟩
  · have hb : ∃ xy ∈ l, b xy.1 xy.2 ≠ q ∧ b xy.1 xy.2 ≠ 0 := by
      push_neg at hclean
      exact hclean
    rw [scanFour_blocked b q l _ hb]
    simp only [Bool.not_true, Bool.false_and, Bool.false_eq_true, false_iff, not_and]
    intro h1 h2 _
    apply hclean
    have := countP_disjoint_full l (fun xy => decide (b xy.1 xy.2 = q))
      (fun xy => decide (b xy.1 xy.2 = 0)) ?_ (by omega)
    · intro xy hxy
      simpa using this xy hxy
    · intro x _
      simp only [decide_eq_true_eq, not_and]
      intro hx hx0
      have hq0 : q = 0 := by omega
      subst hq0
      omega

theorem countFours_eq_spec (R : Rules) (b : Board) (q : Int) (hq : q ≠ 3) :
    countFours R b q = specFours R b q := by
  unfold countFours specFours
  rw [card_filter_fin]
  have := foldl_count (fun i : Fin 28 =>
    (!(scanFour b q (List.ofFn (R.win i)) ⟨0, 0, false⟩).blocked
      && (scanFour b q (List.ofFn (R.win i)) ⟨0, 0, false⟩).occupied == 3
      && (scanFour b q (List.ofFn (R.win i)) ⟨0, 0, false⟩).empty == 1) = true) (List.finRange 28) 0
  simp only at this ⊢
  rw [this, Nat.zero_add]
  apply List.countP_congr
  intro i _
  simp only [decide_eq_true_eq]
  exact scanFour_line b q hq (R.win i)

theorem scanThree_eq (b : Board) (q : Int) (l : List (Fin 5 × Fin 5)) (n : Nat) :
    scanThree b q l n = n + l.countP (fun xy => decide (b xy.1 xy.2 = q)) := by
  induction l generalizing n with
  | nil => simp [scanThree]
  | cons a l ih =>
    by_cases h : b a.1 a.2 = q
    · simp only [scanThree, h, if_true, ih, List.countP_cons]; simp; omega
    · simp only [scanThree, h, if_false, ih, List.countP_cons]; simp [h]

theorem countThrees_eq_spec (R : Rules) (b : Board) (q : Int) :
    countThrees R b q = specThrees R b q := by
  unfold countThrees specThrees
  rw [card_filter_fin]
  have := foldl_count (fun i : Fin 48 =>
    (scanThree b q (List.ofFn (R.lose i)) 0 == 3) = true) (List.finRange 48) 0
  simp only at this ⊢
  rw [this, Nat.zero_add]
  apply List.countP_congr
  intro i _
  simp only [decide_eq_true_eq, beq_iff_eq, scanThree_eq, Nat.zero_add]
  have hlen : (List.ofFn (R.lose i)).length = 3 := by simp
  have hall : (∀ j : Fin 3, b (R.lose i j).1 (R.lose i j).2 = q) ↔
      ∀ xy ∈ List.ofFn (R.lose i), decide (b xy.1 xy.2 = q) = true := by
    constructor
    · intro h xy hxy
      obtain ⟨j, rfl⟩ := (List.mem_ofFn _ _).1 hxy
      exact decide_eq_true (h j)
    · intro h j
      exact of_decide_eq_true (h _ ((List.mem_ofFn _ _).2 ⟨j, rfl⟩))
  rw [hall, ← List.countP_eq_length, hlen]

theorem isMoveValid_decode (b : Board) (move : Int) :
    ∃ v : Bool, isMoveValid b move = some v ∧
      (v = true ↔ ∃ r c : Fin 5, move = 10 * ((r.val : Int) + 1) + ((c.val : Int) + 1) ∧ b r c = 0) := by
  have hdm := Int.tdiv_add_tmod move 10
  unfold isMoveValid
  simp only
  split_ifs with h
  · refine ⟨false, rfl, ?_⟩
    simp only [Bool.false_eq_true, false_iff, not_exists, not_and]
    intro r c hm
    exfalso
    have hr := r.isLt
    have hc := c.isLt
    have h1 : Int.tdiv move 10 = (r.val : Int) + 1 := by
      subst hm
      rw [Int.tdiv_eq_ediv (by omega) (by omega)]
      omega
    have h2 : Int.tmod move 10 = (c.val : Int) + 1 := by omega
    omega
  · have hrange : 0 ≤ Int.tdiv move 10 - 1 ∧ Int.tdiv move 10 - 1 < 5 ∧
        0 ≤ Int.tmod move 10 - 1 ∧ Int.tmod move 10 - 1 < 5 := by omega
    simp only [Board.read, hrange, and_self, dite_true, Option.map_some']
    refine ⟨_, rfl, ?_⟩
    simp only [beq_iff_eq]
    constructor
    · intro h0
      refine ⟨⟨(Int.tdiv move 10 - 1).toNat, by omega⟩, ⟨(Int.tmod move 10 - 1).toNat, by omega⟩, ?_, h0⟩
      simp only
      omega
    · rintro ⟨r, c, hm, h0⟩
      have hr := r.isLt
      have hc := c.isLt
      have h1 : Int.tdiv move 10 = (r.val : Int) + 1 := by
        rw [Int.tdiv_eq_ediv (by omega) (by omega)]
        omega
      have h2 : Int.tmod move 10 = (c.val : Int) + 1 := by omega
      have e1 : (⟨(Int.tdiv move 10 - 1).toNat, by omega⟩ : Fin 5) = r := by
        apply Fin.ext; simp only; omega
      have e2 : (⟨(Int.tmod move 10 - 1).toNat, by omega⟩ : Fin 5) = c := by
        apply Fin.ext; simp only; omega
      rw [e1, e2]; exact h0

theorem Board.set_same (b : Board) (i j : Fin 5) (v : Int) : (b.set i j v) i j = v := by
  simp [Board.set]

theorem Board.set_restore (b : Board) (i j : Fin 5) (v : Int) (h : b i j = 0) :
    (b.set i j v).set i j 0 = b := by
  funext r c
  simp only [Board.set]
  by_cases hrc : r = i ∧ c = j
  · rw [if_pos hrc, hrc.1, hrc.2, h]
  · rw [if_neg hrc, if_neg hrc]

theorem emptyCard_le (b : Board) : emptyCard b ≤ 25 := by
  unfold emptyCard
  have := Finset.card_filter_le (Finset.univ : Finset (Fin 5 × Fin 5)) (fun x => b x.1 x.2 = 0)
  simpa using this

theorem emptyCard_set (b : Board) (i j : Fin 5) (v : Int) (h : b i j = 0) (hv : v ≠ 0) :
    emptyCard (b.set i j v) + 1 = emptyCard b := by
  unfold emptyCard
  have hmem : (i, j) ∈ Finset.univ.filter fun x : Fin 5 × Fin 5 => b x.1 x.2 = 0 := by
    simp [h]
  have heq : (Finset.univ.filter fun x : Fin 5 × Fin 5 => (b.set i j v) x.1 x.2 = 0) =
      (Finset.univ.filter fun x : Fin 5 × Fin 5 => b x.1 x.2 = 0).erase (i, j) := by
    ext ⟨r, c⟩
    simp only [Finset.mem_filter, Finset.mem_univ, true_and, Finset.mem_erase, ne_eq,
      Prod.mk.injEq, Board.set]
    by_cases hrc : r = i ∧ c = j
    · rw [if_pos hrc]; simp [hrc, hv]
    · rw [if_neg hrc]; simp [hrc]
  rw [heq, Finset.card_erase_of_mem hmem]
  have : 0 < (Finset.univ.filter fun x : Fin 5 × Fin 5 => b x.1 x.2 = 0).card :=
    Finset.card_pos.2 ⟨_, hmem⟩
  omega

theorem searchMeasure_child (b : Board) (i j : Fin 5) (p : Int) (h : b i j = 0) :
    searchMeasure (b.set i j p) (3 - p) < searchMeasure b p := by
  unfold searchMeasure
  by_cases hp : p = 0
  · subst hp
    have : b.set i j 0 = b := by
      funext r c
      simp only [Board.set]
      by_cases hrc : r = i ∧ c = j
      · rw [if_pos hrc, hrc.1, hrc.2, h]
      · rw [if_neg hrc]
    rw [this]
    simp
  · have := emptyCard_set b i j p h hp
    rw [if_neg hp]
    split_ifs <;> omega

theorem searchMeasure_le (b : Board) (p : Int) : searchMeasure b p ≤ 51 := by
  unfold searchMeasure
  have := emptyCard_le b
  split_ifs <;> omega

theorem isMoveValid_cell (b : Board) (i j : Fin 5) :
    isMoveValid b (((i.val : Int) + 1) * 10 + ((j.val : Int) + 1)) = some (decide (b i j = 0)) := by
  obtain ⟨v, hv, hiff⟩ := isMoveValid_decode b (((i.val : Int) + 1) * 10 + ((j.val : Int) + 1))
  rw [hv]
  congr 1
  have : (∃ r c : Fin 5, ((i.val : Int) + 1) * 10 + ((j.val : Int) + 1)
      = 10 * ((r.val : Int) + 1) + ((c.val : Int) + 1) ∧ b r c = 0) ↔ b i j = 0 := by
    constructor
    · rintro ⟨r, c, hm, h0⟩
      have := i.isLt; have := j.isLt; have := r.isLt; have := c.isLt
      have e1 : r = i := by apply Fin.ext; omega
      have e2 : c = j := by apply Fin.ext; omega
      rw [← e1, ← e2]; exact h0
    · intro h0
      exact ⟨i, j, by ring, h0⟩
  rw [this] at hiff
  by_cases h0 : b i j = 0
  · simp [h0, hiff.2 h0]
  · have : v ≠ true := fun hv => h0 (hiff.1 hv)
    simp [h0, this]

theorem evaluateBoard_range (R : Rules) (b : Board) (p : Int) :
    -MAX_SCORE ≤ evaluateBoard R b p ∧ evaluateBoard R b p ≤ MAX_SCORE := by
  have := heuristicScore_bounds R b p
  unfold evaluateBoard MAX_SCORE
  simp only
  split_ifs <;> omega

theorem Search.update_board (s : Search) (m : Bool) (v : Int) : (s.update m v).board = s.board := by
  unfold Search.update; split_ifs <;> rfl

theorem Search.update_bestVal_range (s : Search) (m : Bool) (v : Int)
    (hs : -MAX_SCORE ≤ s.bestVal ∧ s.bestVal ≤ MAX_SCORE)
    (hv : -MAX_SCORE ≤ v ∧ v ≤ MAX_SCORE) :
    -MAX_SCORE ≤ (s.update m v).bestVal ∧ (s.update m v).bestVal ≤ MAX_SCORE := by
  unfold Search.update
  split_ifs <;> simp only <;> omega

theorem minimaxCols_skip (child : Board → Int → Int → Option (Int × Board)) (m : Bool) (p : Int)
    (i j : Fin 5) (js : List (Fin 5)) (s : Search) (h : s.board i j ≠ 0) :
    minimaxCols child m p i (j :: js) s = minimaxCols child m p i js s := by
  rw [minimaxCols]
  simp only [isMoveValid_cell, h, decide_False]

theorem minimaxCols_step (child : Board → Int → Int → Option (Int × Board)) (m : Bool) (p : Int)
    (i j : Fin 5) (js : List (Fin 5)) (s : Search) (v : Int) (h : s.board i j = 0)
    (hc : child (s.board.set i j p) s.alpha s.beta = some (v, s.board.set i j p)) :
    minimaxCols child m p i (j :: js) s =
      if (s.update m v).beta ≤ (s.update m v).alpha then some (s.update m v)
      else minimaxCols child m p i js (s.update m v) := by
  rw [minimaxCols]
  simp only [isMoveValid_cell, h, decide_True, hc, Board.set_restore _ _ _ _ h]

theorem minimaxCols_frame (child : Board → Int → Int → Option (Int × Board)) (m : Bool) (p : Int)
    (b : Board) (hchild : ChildFrame child b p) (i : Fin 5) (js : List (Fin 5)) (s : Search)
    (hb : s.board = b) (hs : -MAX_SCORE ≤ s.bestVal ∧ s.bestVal ≤ MAX_SCORE) :
    ∃ s1, minimaxCols child m p i js s = some s1 ∧ s1.board = b ∧
      -MAX_SCORE ≤ s1.bestVal ∧ s1.bestVal ≤ MAX_SCORE := by
  induction js generalizing s with
  | nil => exact ⟨s, rfl, hb, hs⟩
  | cons j js ih =>
    by_cases h0 : s.board i j = 0
    · obtain ⟨v, hv, hr⟩ := hchild i j (hb ▸ h0) s.alpha s.beta
      rw [← hb] at hv
      rw [minimaxCols_step child m p i j js s v h0 hv]
      have hb1 : (s.update m v).board = b := by rw [Search.update_board, hb]
      have hs1 := Search.update_bestVal_range s m v hs hr
      split_ifs
      · exact ⟨_, rfl, hb1, hs1⟩
      · exact ih _ hb1 hs1
    · rw [minimaxCols_skip child m p i j js s h0]
      exact ih s hb hs

theorem minimaxRows_frame (child : Board → Int → Int → Option (Int × Board)) (m : Bool) (p : Int)
    (b : Board) (hchild : ChildFrame child b p) (is : List (Fin 5)) (s : Search)
    (hb : s.board = b) (hs : -MAX_SCORE ≤ s.bestVal ∧ s.bestVal ≤ MAX_SCORE) :
    ∃ s1, minimaxRows child m p is s = some s1 ∧ s1.board = b ∧
      -MAX_SCORE ≤ s1.bestVal ∧ s1.bestVal ≤ MAX_SCORE := by
  induction is generalizing s with
  | nil => exact ⟨s, rfl, hb, hs⟩
  | cons i is ih =>
    obtain ⟨s1, h1, hb1, hs1⟩ := minimaxCols_frame child m p b hchild i (List.finRange 5) s hb hs
    rw [minimaxRows, h1]
    exact ih s1 hb1 hs1

theorem minimax_terminal (R : Rules) (fuel : Nat) (b : Board) (depth : Int) (m : Bool)
    (p a be : Int)
    (hterm : depth = 0 ∨ R.winCheck b p = true ∨ R.loseCheck b p = true
        ∨ R.winCheck b (3 - p) = true ∨ R.loseCheck b (3 - p) = true) :
    minimax R (fuel + 1) b depth m p a be = some (evaluateBoard R b R.playerNumber, b) := by
  rw [minimax]
  simp only
  rw [if_pos hterm]

theorem minimax_inner (R : Rules) (fuel : Nat) (b : Board) (depth : Int) (m : Bool)
    (p a be : Int)
    (hterm : ¬ (depth = 0 ∨ R.winCheck b p = true ∨ R.loseCheck b p = true
        ∨ R.winCheck b (3 - p) = true ∨ R.loseCheck b (3 - p) = true)) :
    minimax R (fuel + 1) b depth m p a be =
      (minimaxRows (fun b1 a1 be1 => minimax R fuel b1 (depth - 1) (!m) (3 - p) a1 be1)
        m p (List.finRange 5) ⟨b, if m then -MAX_SCORE else MAX_SCORE, a, be⟩).map
        (fun s => (s.bestVal, s.board)) := by
  rw [minimax]
  simp only
  rw [if_neg hterm]
  cases minimaxRows (fun b1 a1 be1 => minimax R fuel b1 (depth - 1) (!m) (3 - p) a1 be1)
        m p (List.finRange 5) ⟨b, if m then -MAX_SCORE else MAX_SCORE, a, be⟩ <;> rfl

/-- With fuel above the measure, `minimax` returns, leaves the board as it
found it, and its value lies within `[-MAX_SCORE, MAX_SCORE]`. -/
theorem minimax_frame (R : Rules) (fuel : Nat) (b : Board) (depth : Int) (m : Bool) (p a be : Int)
    (hfuel : searchMeasure b p < fuel) :
    ∃ v, minimax R fuel b depth m p a be = some (v, b) ∧ -MAX_SCORE ≤ v ∧ v ≤ MAX_SCORE := by
  induction fuel generalizing b depth m p a be with
  | zero => omega
  | succ fuel ih =>
    by_cases hterm : depth = 0 ∨ R.winCheck b p = true ∨ R.loseCheck b p = true
        ∨ R.winCheck b (3 - p) = true ∨ R.loseCheck b (3 - p) = true
    · rw [minimax_terminal R fuel b depth m p a be hterm]
      exact ⟨_, rfl, evaluateBoard_range R b R.playerNumber⟩
    · have hchild : ChildFrame
          (fun b1 a1 be1 => minimax R fuel b1 (depth - 1) (!m) (3 - p) a1 be1) b p := by
        intro i j h0 a1 be1
        have := searchMeasure_child b i j p h0
        exact ih (b.set i j p) (depth - 1) (!m) (3 - p) a1 be1 (by omega)
      obtain ⟨s1, h1, hb1, hs1⟩ := minimaxRows_frame _ m p b hchild (List.finRange 5)
        ⟨b, if m then -MAX_SCORE else MAX_SCORE, a, be⟩ rfl
        (by simp only [MAX_SCORE]; split_ifs <;> omega)
      rw [minimax_inner R fuel b depth m p a be hterm, h1]
      exact ⟨s1.bestVal, by rw [Option.map_some', hb1], hs1⟩

theorem lockstep_step (m : Bool) (a be : Int) (s : Search) (fb v w : Int)
    (ha : -MAX_SCORE ≤ a) (hbe : be ≤ MAX_SCORE)
    (h : Lockstep m a be s fb)
    (hrel : -MAX_SCORE ≤ s.alpha → s.alpha < s.beta → s.beta ≤ MAX_SCORE →
      Related s.alpha s.beta v w) :
    Lockstep m a be (s.update m v)
      (if m then (if w > fb then w else fb) else (if w < fb then w else fb)) := by
  unfold Lockstep Search.update Related at *
  cases m
  · simp only [Bool.false_eq_true, if_false] at h ⊢
    split_ifs <;> omega
  · simp only [if_true] at h ⊢
    split_ifs <;> omega

theorem lockstep_cut (m : Bool) (a be : Int) (s : Search) (fb : Int)
    (h : Lockstep m a be s fb) (hcut : s.beta ≤ s.alpha) (fb1 : Int)
    (hmono : if m then fb ≤ fb1 else fb1 ≤ fb) : Lockstep m a be s fb1 := by
  unfold Lockstep at *
  cases m
  · simp only [Bool.false_eq_true, if_false] at h hmono ⊢
    omega
  · simp only [if_true] at h hmono ⊢
    omega

theorem lockstep_init (m : Bool) (a be : Int) (b : Board) (ha : -MAX_SCORE ≤ a) (hab : a < be)
    (hbe : be ≤ MAX_SCORE) :
    Lockstep m a be ⟨b, if m then -MAX_SCORE else MAX_SCORE, a, be⟩
      (if m then -MAX_SCORE else MAX_SCORE) := by
  unfold Lockstep
  cases m
  · simp only [Bool.false_eq_true, if_false, true_and]
    omega
  · simp only [if_true, true_and]
    omega

theorem lockstep_final (m : Bool) (a be : Int) (s : Search) (fb : Int) (hab : a < be)
    (h : Lockstep m a be s fb) : Related a be s.bestVal fb := by
  unfold Lockstep at h
  unfold Related
  cases m
  · simp only [Bool.false_eq_true, if_false] at h
    omega
  · simp only [if_true] at h
    omega

theorem fullCols_skip (fchild : Board → Option Int) (m : Bool) (p : Int) (b : Board)
    (i j : Fin 5) (js : List (Fin 5)) (fb : Int) (h : b i j ≠ 0) :
    fullCols fchild m p b i (j :: js) fb = fullCols fchild m p b i js fb := by
  rw [fullCols, if_neg h]

theorem fullCols_step (fchild : Board → Option Int) (m : Bool) (p : Int) (b : Board)
    (i j : Fin 5) (js : List (Fin 5)) (fb w : Int) (h : b i j = 0)
    (hw : fchild (b.set i j p) = some w) :
    fullCols fchild m p b i (j :: js) fb = fullCols fchild m p b i js
      (if m then (if w > fb then w else fb) else (if w < fb then w else fb)) := by
  rw [fullCols, if_pos h, hw]

/-- The loop without cutoff returns, stays in range and moves its running
value only upwards at a maximizing node and only downwards at a minimizing one. -/
theorem fullCols_mono (child : Board → Int → Int → Option (Int × Board))
    (fchild : Board → Option Int) (m : Bool) (p : Int) (b : Board)
    (hex : ChildExact child fchild b p) (i : Fin 5) (js : List (Fin 5)) (fb : Int)
    (hfb : -MAX_SCORE ≤ fb ∧ fb ≤ MAX_SCORE) :
    ∃ fb1, fullCols fchild m p b i js fb = some fb1 ∧ -MAX_SCORE ≤ fb1 ∧ fb1 ≤ MAX_SCORE ∧
      (if m then fb ≤ fb1 else fb1 ≤ fb) := by
  induction js generalizing fb with
  | nil => exact ⟨fb, rfl, hfb.1, hfb.2, by split_ifs <;> omega⟩
  | cons j js ih =>
    by_cases h0 : b i j = 0
    · obtain ⟨w, hw, hw1, hw2, _⟩ := hex i j h0
      rw [fullCols_step fchild m p b i j js fb w h0 hw]
      obtain ⟨fb1, h1, h2, h3, h4⟩ := ih
        (if m then (if w > fb then w else fb) else (if w < fb then w else fb))
        (by split_ifs <;> omega)
      refine ⟨fb1, h1, h2, h3, ?_⟩
      cases m
      · simp only [Bool.false_eq_true, if_false] at h4 ⊢
        split_ifs at h4 <;> omega
      · simp only [if_true] at h4 ⊢
        split_ifs at h4 <;> omega
    · rw [fullCols_skip fchild m p b i j js fb h0]
      exact ih fb hfb

theorem minimaxCols_lockstep (child : Board → Int → Int → Option (Int × Board))
    (fchild : Board → Option Int) (m : Bool) (p : Int) (b : Board) (a be : Int)
    (ha : -MAX_SCORE ≤ a) (hbe : be ≤ MAX_SCORE)
    (hfr : ChildFrame child b p) (hex : ChildExact child fchild b p)
    (i : Fin 5) (js : List (Fin 5)) (s : Search) (fb : Int)
    (hb : s.board = b) (hfb : -MAX_SCORE ≤ fb ∧ fb ≤ MAX_SCORE)
    (hinv : Lockstep m a be s fb) :
    ∃ s1 fb1, minimaxCols child m p i js s = some s1 ∧
      fullCols fchild m p b i js fb = some fb1 ∧ s1.board = b ∧
      (-MAX_SCORE ≤ fb1 ∧ fb1 ≤ MAX_SCORE) ∧ Lockstep m a be s1 fb1 := by
  induction js generalizing s fb with
  | nil => exact ⟨s, fb, rfl, rfl, hb, hfb, hinv⟩
  | cons j js ih =>
    by_cases h0 : b i j = 0
    · obtain ⟨v, hv, _⟩ := hfr i j h0 s.alpha s.beta
      obtain ⟨w, hw, hw1, hw2, hrel⟩ := hex i j h0
      have hrel1 := fun h1 h2 h3 => hrel s.alpha s.beta h1 h2 h3 v _ hv
      have hstep := lockstep_step m a be s fb v w ha hbe hinv hrel1
      have hfb1 : -MAX_SCORE ≤ (if m then (if w > fb then w else fb)
          else (if w < fb then w else fb)) ∧
          (if m then (if w > fb then w else fb) else (if w < fb then w else fb)) ≤ MAX_SCORE := by
        split_ifs <;> omega
      have hb1 : (s.update m v).board = b := by rw [Search.update_board, hb]
      rw [← hb] at hv h0
      rw [minimaxCols_step child m p i j js s v h0 hv]
      rw [hb] at h0
      rw [fullCols_step fchild m p b i j js fb w h0 hw]
      by_cases hcut : (s.update m v).beta ≤ (s.update m v).alpha
      · rw [if_pos hcut]
        obtain ⟨fb1, h1, h2, h3, h4⟩ := fullCols_mono child fchild m p b hex i js _ hfb1
        exact ⟨_, fb1, rfl, h1, hb1, ⟨h2, h3⟩, lockstep_cut m a be _ _ hstep hcut fb1 h4⟩
      · rw [if_neg hcut]
        exact ih _ _ hb1 hfb1 hstep
    · have h0s : s.board i j ≠ 0 := by rw [hb]; exact h0
      rw [minimaxCols_skip child m p i j js s h0s, fullCols_skip fchild m p b i j js fb h0]
      exact ih s fb hb hfb hinv

theorem minimaxRows_lockstep (child : Board → Int → Int → Option (Int × Board))
    (fchild : Board → Option Int) (m : Bool) (p : Int) (b : Board) (a be : Int)
    (ha : -MAX_SCORE ≤ a) (hbe : be ≤ MAX_SCORE)
    (hfr : ChildFrame child b p) (hex : ChildExact child fchild b p)
    (is : List (Fin 5)) (s : Search) (fb : Int)
    (hb : s.board = b) (hfb : -MAX_SCORE ≤ fb ∧ fb ≤ MAX_SCORE)
    (hinv : Lockstep m a be s fb) :
    ∃ s1 fb1, minimaxRows child m p is s = some s1 ∧
      fullRows fchild m p b is fb = some fb1 ∧ s1.board = b ∧
      (-MAX_SCORE ≤ fb1 ∧ fb1 ≤ MAX_SCORE) ∧ Lockstep m a be s1 fb1 := by
  induction is generalizing s fb with
  | nil => exact ⟨s, fb, rfl, rfl, hb, hfb, hinv⟩
  | cons i is ih =>
    obtain ⟨s1, fb1, h1, h2, hb1, hfb1, hinv1⟩ :=
      minimaxCols_lockstep child fchild m p b a be ha hbe hfr hex i (List.finRange 5) s fb
        hb hfb hinv
    rw [minimaxRows, h1, fullRows, h2]
    exact ih s1 fb1 hb1 hfb1 hinv1

theorem minimaxFull_terminal (R : Rules) (fuel : Nat) (b : Board) (depth : Int) (m : Bool)
    (p : Int)
    (hterm : depth = 0 ∨ R.winCheck b p = true ∨ R.loseCheck b p = true
        ∨ R.winCheck b (3 - p) = true ∨ R.loseCheck b (3 - p) = true) :
    minimaxFull R (fuel + 1) b depth m p = some (evaluateBoard R b R.playerNumber) := by
  rw [minimaxFull, if_pos hterm]

theorem minimaxFull_inner (R : Rules) (fuel : Nat) (b : Board) (depth : Int) (m : Bool)
    (p : Int)
    (hterm : ¬ (depth = 0 ∨ R.winCheck b p = true ∨ R.loseCheck b p = true
        ∨ R.winCheck b (3 - p) = true ∨ R.loseCheck b (3 - p) = true)) :
    minimaxFull R (fuel + 1) b depth m p =
      fullRows (fun b1 => minimaxFull R fuel b1 (depth - 1) (!m) (3 - p))
        m p b (List.finRange 5) (if m then -MAX_SCORE else MAX_SCORE) := by
  rw [minimaxFull, if_neg hterm]

/-- The value of `minimax` on any window inside `[-MAX_SCORE, MAX_SCORE]` against
the value of the search without cutoff. -/
theorem minimax_related (R : Rules) (fuel : Nat) (b : Board) (depth : Int) (m : Bool) (p : Int)
    (hfuel : searchMeasure b p < fuel) :
    ∃ w, minimaxFull R fuel b depth m p = some w ∧ -MAX_SCORE ≤ w ∧ w ≤ MAX_SCORE ∧
      ∀ a be, -MAX_SCORE ≤ a → a < be → be ≤ MAX_SCORE → ∀ v bd,
        minimax R fuel b depth m p a be = some (v, bd) → Related a be v w := by
  induction fuel generalizing b depth m p with
  | zero => omega
  | succ fuel ih =>
    by_cases hterm : depth = 0 ∨ R.winCheck b p = true ∨ R.loseCheck b p = true
        ∨ R.winCheck b (3 - p) = true ∨ R.loseCheck b (3 - p) = true
    · refine ⟨_, minimaxFull_terminal R fuel b depth m p hterm,
        (evaluateBoard_range R b R.playerNumber).1, (evaluateBoard_range R b R.playerNumber).2, ?_⟩
      intro a be _ _ _ v bd hv
      rw [minimax_terminal R fuel b depth m p a be hterm] at hv
      have : v = evaluateBoard R b R.playerNumber := by
        simp only [Option.some.injEq, Prod.mk.injEq] at hv; exact hv.1.symm
      rw [this]
      exact ⟨fun h => h, fun h => h, fun _ _ => rfl⟩
    · have hfr : ChildFrame
          (fun b1 a1 be1 => minimax R fuel b1 (depth - 1) (!m) (3 - p) a1 be1) b p := by
        intro i j h0 a1 be1
        have := searchMeasure_child b i j p h0
        exact minimax_frame R fuel (b.set i j p) (depth - 1) (!m) (3 - p) a1 be1 (by omega)
      have hex : ChildExact
          (fun b1 a1 be1 => minimax R fuel b1 (depth - 1) (!m) (3 - p) a1 be1)
          (fun b1 => minimaxFull R fuel b1 (depth - 1) (!m) (3 - p)) b p := by
        intro i j h0
        have := searchMeasure_child b i j p h0
        exact ih (b.set i j p) (depth - 1) (!m) (3 - p) (by omega)
      have hsent : -MAX_SCORE ≤ (if m then -MAX_SCORE else MAX_SCORE) ∧
          (if m then -MAX_SCORE else MAX_SCORE) ≤ MAX_SCORE := by
        simp only [MAX_SCORE]; split_ifs <;> omega
      -- the loops without cutoff return some value
      obtain ⟨s0, w, _, hw, _, hwr, _⟩ :=
        minimaxRows_lockstep _ _ m p b (-MAX_SCORE) MAX_SCORE (le_refl _) (le_refl _) hfr hex
          (List.finRange 5) ⟨b, if m then -MAX_SCORE else MAX_SCORE, -MAX_SCORE, MAX_SCORE⟩
          (if m then -MAX_SCORE else MAX_SCORE) rfl hsent
          (lockstep_init m _ _ b (le_refl _) (by simp [MAX_SCORE]) (le_refl _))
      refine ⟨w, by rw [minimaxFull_inner R fuel b depth m p hterm, hw], hwr.1, hwr.2, ?_⟩
      intro a be ha hab hbe v bd hv
      obtain ⟨s1, w1, h1, hw1, _, _, hinv⟩ :=
        minimaxRows_lockstep _ _ m p b a be ha hbe hfr hex
          (List.finRange 5) ⟨b, if m then -MAX_SCORE else MAX_SCORE, a, be⟩
          (if m then -MAX_SCORE else MAX_SCORE) rfl hsent (lockstep_init m a be b ha hab hbe)
      rw [hw] at hw1
      rw [minimax_inner R fuel b depth m p a be hterm, h1] at hv
      simp only [Option.map_some', Option.some.injEq, Prod.mk.injEq] at hv hw1
      rw [← hv.1, hw1]
      exact lockstep_final m a be s1 w1 hab hinv

theorem minimaxCols_mono (child child1 : Board → Int → Int → Option (Int × Board))
    (hle : ∀ b1 a be r, child b1 a be = some r → child1 b1 a be = some r)
    (m : Bool) (p : Int) (i : Fin 5) (js : List (Fin 5)) (s s1 : Search)
    (h : minimaxCols child m p i js s = some s1) :
    minimaxCols child1 m p i js s = some s1 := by
  induction js generalizing s with
  | nil => exact h
  | cons j js ih =>
    rw [minimaxCols] at h ⊢
    simp only [isMoveValid_cell] at h ⊢
    by_cases h0 : s.board i j = 0
    · simp only [h0, decide_True] at h ⊢
      cases hc : child (s.board.set i j p) s.alpha s.beta with
      | none => rw [hc] at h; exact absurd h (by simp)
      | some r =>
        rw [hc] at h
        rw [hle _ _ _ r hc]
        obtain ⟨v, bd⟩ := r
        simp only at h ⊢
        split_ifs at h ⊢ with hcut
        · exact h
        · exact ih _ h
    · simp only [h0, decide_False] at h ⊢
      exact ih _ h

theorem minimaxRows_mono (child child1 : Board → Int → Int → Option (Int × Board))
    (hle : ∀ b1 a be r, child b1 a be = some r → child1 b1 a be = some r)
    (m : Bool) (p : Int) (is : List (Fin 5)) (s s1 : Search)
    (h : minimaxRows child m p is s = some s1) :
    minimaxRows child1 m p is s = some s1 := by
  induction is generalizing s with
  | nil => exact h
  | cons i is ih =>
    rw [minimaxRows] at h ⊢
    cases hc : minimaxCols child m p i (List.finRange 5) s with
    | none => rw [hc] at h; exact absurd h (by simp)
    | some s2 =>
      rw [hc] at h
      rw [minimaxCols_mono child child1 hle m p i _ s s2 hc]
      exact ih _ h

/-- A result of `minimax` does not change when more fuel is given. -/
theorem minimax_fuel_succ (R : Rules) (fuel : Nat) (b : Board) (depth : Int) (m : Bool)
    (p a be : Int) (r : Int × Board) (h : minimax R fuel b depth m p a be = some r) :
    minimax R (fuel + 1) b depth m p a be = some r := by
  induction fuel generalizing b depth m p a be r with
  | zero => rw [minimax] at h; exact absurd h (by simp)
  | succ fuel ih =>
    by_cases hterm : depth = 0 ∨ R.winCheck b p = true ∨ R.loseCheck b p = true
        ∨ R.winCheck b (3 - p) = true ∨ R.loseCheck b (3 - p) = true
    · rw [minimax_terminal R fuel b depth m p a be hterm] at h
      rw [minimax_terminal R (fuel + 1) b depth m p a be hterm]
      exact h
    · rw [minimax_inner R fuel b depth m p a be hterm] at h
      rw [minimax_inner R (fuel + 1) b depth m p a be hterm]
      cases hc : minimaxRows (fun b1 a1 be1 => minimax R fuel b1 (depth - 1) (!m) (3 - p) a1 be1)
          m p (List.finRange 5) ⟨b, if m then -MAX_SCORE else MAX_SCORE, a, be⟩ with
      | none => rw [hc] at h; exact absurd h (by simp)
      | some s1 =>
        rw [hc] at h
        rw [minimaxRows_mono _
          (fun b1 a1 be1 => minimax R (fuel + 1) b1 (depth - 1) (!m) (3 - p) a1 be1)
          (fun b1 a1 be1 r hr => ih b1 (depth - 1) (!m) (3 - p) a1 be1 r hr) m p _ _ s1 hc]
        exact h

theorem minimax_fuel_le (R : Rules) (fuel fuel1 : Nat) (hle : fuel ≤ fuel1) (b : Board)
    (depth : Int) (m : Bool) (p a be : Int) (r : Int × Board)
    (h : minimax R fuel b depth m p a be = some r) :
    minimax R fuel1 b depth m p a be = some r := by
  induction fuel1 with
  | zero =>
    have : fuel = 0 := by omega
    subst this; exact h
  | succ n ih =>
    by_cases hn : fuel ≤ n
    · exact minimax_fuel_succ R n b depth m p a be r (ih hn)
    · have : fuel = n + 1 := by omega
      subst this; exact h

theorem pickCols_skip (search : Board → Option (Int × Board)) (p : Int)
    (i j : Fin 5) (js : List (Fin 5)) (s : Pick) (h : s.board i j ≠ 0) :
    pickCols search p i (j :: js) s = pickCols search p i js s := by
  rw [pickCols]
  simp only [isMoveValid_cell, h, decide_False]

theorem filter_eq_nil_of_lt (val : Fin 5 × Fin 5 → Int) (done : List (Fin 5 × Fin 5)) (x v : Int)
    (h : ∀ c ∈ done, val c ≤ x) (hv : x < v) :
    (done.filter fun c => decide (val c = v)) = [] := by
  rw [List.filter_eq_nil_iff]
  intro c hc
  have := h c hc
  simp only [decide_eq_true_eq]
  omega

theorem pickInv_step (b : Board) (val : Fin 5 × Fin 5 → Int) (s : Pick)
    (done : List (Fin 5 × Fin 5)) (c : Fin 5 × Fin 5) (hv : -MAX_SCORE ≤ val c)
    (hlen : done.length < 25) (h : PickInv b val s done) :
    ∃ bm0 bm1, writeAt s.bestMoves 0 (encodeMove c) = some bm0 ∧
      writeAt s.bestMoves s.count (encodeMove c) = some bm1 ∧
      PickInv b val
        (if val c > s.bestVal then
          { board := b, bestVal := val c, bestMoves := bm0, count := 1 }
         else if val c = s.bestVal then
          { board := b, bestVal := s.bestVal, bestMoves := bm1, count := s.count + 1 }
         else { s with board := b })
        (done ++ [c]) := by
  obtain ⟨hb, hl, hlo, hle, hex, hcnt, htake⟩ := h
  have hcl : s.count ≤ done.length := by
    rw [hcnt]; exact List.length_filter_le _ _
  refine ⟨s.bestMoves.set 0 (encodeMove c), s.bestMoves.set s.count (encodeMove c), ?_, ?_, ?_⟩
  · unfold writeAt; rw [if_pos (by omega)]
  · unfold writeAt; rw [if_pos (by omega)]
  · by_cases h1 : val c > s.bestVal
    · rw [if_pos h1]
      have hnil := filter_eq_nil_of_lt val done s.bestVal (val c) hle h1
      refine ⟨rfl, by simp [hl], hv, ?_, ?_, ?_, ?_⟩
      · intro c1 hc1
        rcases List.mem_append.1 hc1 with hc1 | hc1
        · have := hle c1 hc1; simp only; omega
        · simp only [List.mem_singleton] at hc1; subst hc1; exact le_refl _
      · exact Or.inr ⟨c, by simp, rfl⟩
      · simp only [List.filter_append, hnil, List.nil_append]
        simp
      · simp only [List.filter_append, hnil, List.nil_append]
        cases hbm : s.bestMoves with
        | nil => rw [hbm] at hl; simp at hl
        | cons x xs => simp
    · rw [if_neg h1]
      by_cases h2 : val c = s.bestVal
      · rw [if_pos h2]
        refine ⟨rfl, by simp [hl], hlo, ?_, ?_, ?_, ?_⟩
        · intro c1 hc1
          rcases List.mem_append.1 hc1 with hc1 | hc1
          · exact hle c1 hc1
          · simp only [List.mem_singleton] at hc1; subst hc1; exact le_of_eq h2
        · exact Or.inr ⟨c, by simp, h2⟩
        · simp only [List.filter_append, List.length_append, ← hcnt]
          simp [h2]
        · simp only [List.filter_append, List.map_append, ← htake]
          rw [List.take_succ, List.set_take,
            List.set_eq_of_length_le (by simp), List.getElem?_set_self (by omega)]
          simp [h2]
      · rw [if_neg h2]
        have h3 : val c < s.bestVal := by omega
        have hf : (List.filter (fun c1 => decide (val c1 = s.bestVal)) [c]) = [] := by
          simp [h2]
        refine ⟨rfl, hl, hlo, ?_, ?_, ?_, ?_⟩
        · intro c1 hc1
          rcases List.mem_append.1 hc1 with hc1 | hc1
          · exact hle c1 hc1
          · simp only [List.mem_singleton] at hc1; subst hc1; exact le_of_lt h3
        · rcases hex with ⟨_, h4⟩ | ⟨c1, hc1, h4⟩
          · simp only at h3; omega
          · exact Or.inr ⟨c1, List.mem_append_left _ hc1, h4⟩
        · simp only [List.filter_append, hf, List.append_nil]; exact hcnt
        · simp only [List.filter_append, hf, List.append_nil]; exact htake

theorem pickCols_step (search : Board → Option (Int × Board)) (p : Int)
    (i j : Fin 5) (js : List (Fin 5)) (s : Pick) (v : Int) (bm0 bm1 : List Int)
    (h : s.board i j = 0)
    (hc : search (s.board.set i j p) = some (v, s.board.set i j p))
    (h0 : writeAt s.bestMoves 0 (encodeMove (i, j)) = some bm0)
    (h1 : writeAt s.bestMoves s.count (encodeMove (i, j)) = some bm1) :
    pickCols search p i (j :: js) s =
      pickCols search p i js
        (if v > s.bestVal then
          { board := s.board, bestVal := v, bestMoves := bm0, count := 1 }
         else if v = s.bestVal then
          { board := s.board, bestVal := s.bestVal, bestMoves := bm1, count := s.count + 1 }
         else { s with board := s.board }) := by
  unfold encodeMove at h0 h1
  simp only at h0 h1
  rw [pickCols]
  simp only [isMoveValid_cell, h, decide_True, hc, Board.set_restore _ _ _ _ h, h0, h1]
  split_ifs <;> rfl

theorem pickCols_inv (search : Board → Option (Int × Board)) (p : Int) (b : Board)
    (val : Fin 5 × Fin 5 → Int)
    (hs : ∀ i j, b i j = 0 →
      search (b.set i j p) = some (val (i, j), b.set i j p) ∧ -MAX_SCORE ≤ val (i, j))
    (i : Fin 5) (js : List (Fin 5)) (s : Pick) (done : List (Fin 5 × Fin 5))
    (hlen : done.length + js.length ≤ 25) (h : PickInv b val s done) :
    ∃ s1, pickCols search p i js s = some s1 ∧ PickInv b val s1 (done ++ legalInRow b i js) := by
  induction js generalizing s done with
  | nil => exact ⟨s, rfl, by simpa [legalInRow] using h⟩
  | cons j js ih =>
    have hb := h.1
    simp only [List.length_cons] at hlen
    by_cases h0 : b i j = 0
    · obtain ⟨hc, hv⟩ := hs i j h0
      obtain ⟨bm0, bm1, hw0, hw1, hinv⟩ := pickInv_step b val s done (i, j) hv (by omega) h
      rw [← hb] at hc h0
      rw [pickCols_step search p i j js s (val (i, j)) bm0 bm1 h0 hc hw0 hw1]
      rw [hb] at h0 ⊢
      have hl : done ++ legalInRow b i (j :: js) = (done ++ [(i, j)]) ++ legalInRow b i js := by
        simp [legalInRow, h0]
      rw [hl]
      exact ih _ _ (by simp; omega) hinv
    · have h0s : s.board i j ≠ 0 := by rw [hb]; exact h0
      rw [pickCols_skip search p i j js s h0s]
      have hl : legalInRow b i (j :: js) = legalInRow b i js := by
        simp [legalInRow, h0]
      rw [hl]
      exact ih s done (by omega) h

theorem legalInRow_length_le (b : Board) (i : Fin 5) (js : List (Fin 5)) :
    (legalInRow b i js).length ≤ js.length := by
  unfold legalInRow
  rw [List.length_map]
  exact List.length_filter_le _ _

theorem pickRows_inv (search : Board → Option (Int × Board)) (p : Int) (b : Board)
    (val : Fin 5 × Fin 5 → Int)
    (hs : ∀ i j, b i j = 0 →
      search (b.set i j p) = some (val (i, j), b.set i j p) ∧ -MAX_SCORE ≤ val (i, j))
    (is : List (Fin 5)) (s : Pick) (done : List (Fin 5 × Fin 5))
    (hlen : done.length + 5 * is.length ≤ 25) (h : PickInv b val s done) :
    ∃ s1, pickRows search p is s = some s1 ∧ PickInv b val s1 (done ++ legalInRows b is) := by
  induction is generalizing s done with
  | nil => exact ⟨s, rfl, by simpa [legalInRows] using h⟩
  | cons i is ih =>
    simp only [List.length_cons] at hlen
    obtain ⟨s1, h1, hinv1⟩ := pickCols_inv search p b val hs i (List.finRange 5) s done
      (by simp; omega) h
    rw [pickRows, h1]
    have hl : done ++ legalInRows b (i :: is) =
        (done ++ legalInRow b i (List.finRange 5)) ++ legalInRows b is := by
      simp [legalInRows]
    rw [hl]
    have := legalInRow_length_le b i (List.finRange 5)
    simp only [List.length_finRange] at this
    exact ih s1 _ (by simp only [List.length_append]; omega) hinv1

/-- The scan of `getBestMove` on any search function whose calls return and
restore the board: it ends with the invariant over all legal moves. -/
theorem scanMoves_inv (search : Board → Int → Bool → Int → Int → Int → Option (Int × Board))
    (b : Board) (player depth : Int) (junk : Fin 25 → Int) (val : Fin 5 × Fin 5 → Int)
    (hs : ∀ i j, b i j = 0 →
      search (b.set i j player) (depth - 1) false (3 - player) (-MAX_SCORE) MAX_SCORE
        = some (val (i, j), b.set i j player) ∧ -MAX_SCORE ≤ val (i, j)) :
    ∃ s, scanMoves search b player depth junk = some s ∧ PickInv b val s (legalMoves b) := by
  have h0 : PickInv b val
      { board := b, bestVal := -MAX_SCORE, bestMoves := List.ofFn junk, count := 0 } [] := by
    refine ⟨rfl, by simp, le_refl _, by simp, Or.inl ⟨rfl, rfl⟩, by simp, by simp⟩
  obtain ⟨s, h1, h2⟩ := pickRows_inv
    (fun b1 => search b1 (depth - 1) false (3 - player) (-MAX_SCORE) MAX_SCORE) player b val hs
    (List.finRange 5) _ [] (by simp) h0
  exact ⟨s, h1, by simpa [legalMoves] using h2⟩

theorem mem_legalMoves (b : Board) (c : Fin 5 × Fin 5) : c ∈ legalMoves b ↔ b c.1 c.2 = 0 := by
  obtain ⟨i, j⟩ := c
  simp only [legalMoves, legalInRows, legalInRow, List.mem_flatMap, List.mem_map,
    List.mem_filter, List.mem_finRange, true_and, decide_eq_true_eq, Prod.mk.injEq]
  constructor
  · rintro ⟨i1, j1, h, rfl, rfl⟩; exact h
  · intro h; exact ⟨i, j, h, rfl, rfl⟩

theorem rootValue_spec (R : Rules) (fuel : Nat) (b : Board) (player depth : Int)
    (hfuel : 52 ≤ fuel) (i j : Fin 5) :
    minimax R fuel (b.set i j player) (depth - 1) false (3 - player) (-MAX_SCORE) MAX_SCORE
      = some (rootValue R fuel b player depth (i, j), b.set i j player) ∧
    -MAX_SCORE ≤ rootValue R fuel b player depth (i, j) := by
  have hm := searchMeasure_le (b.set i j player) (3 - player)
  obtain ⟨v, hv, hv1, _⟩ := minimax_frame R fuel (b.set i j player) (depth - 1) false
    (3 - player) (-MAX_SCORE) MAX_SCORE (by omega)
  have : rootValue R fuel b player depth (i, j) = v := by
    unfold rootValue; simp only; rw [hv]
  rw [this]
  exact ⟨hv, hv1⟩

theorem pickInv_filter_eq (b : Board) (val : Fin 5 × Fin 5 → Int) (s : Pick)
    (done : List (Fin 5 × Fin 5)) (h : PickInv b val s done) (hne : done ≠ []) :
    (done.filter fun c => decide (val c = s.bestVal)) =
      done.filter fun c => done.all fun c1 => decide (val c1 ≤ val c) := by
  obtain ⟨_, _, _, hle, hex, _, _⟩ := h
  rcases hex with ⟨h1, _⟩ | ⟨c0, hc0, hv0⟩
  · exact absurd h1 hne
  · apply List.filter_congr
    intro c hc
    have h1 := hle c hc
    by_cases h2 : val c = s.bestVal
    · have : (done.all fun c1 => decide (val c1 ≤ val c)) = true := by
        rw [List.all_eq_true]
        intro c1 hc1
        have := hle c1 hc1
        simp only [decide_eq_true_eq]; omega
      rw [this, decide_eq_true h2]
    · have : (done.all fun c1 => decide (val c1 ≤ val c)) = false := by
        rw [Bool.eq_false_iff]
        intro hall
        rw [List.all_eq_true] at hall
        have := hall c0 hc0
        simp only [decide_eq_true_eq] at this
        omega
      rw [this, decide_eq_false h2]

theorem legalInRows_length_le (b : Board) (is : List (Fin 5)) :
    (legalInRows b is).length ≤ 5 * is.length := by
  induction is with
  | nil => simp [legalInRows]
  | cons i is ih =>
    have h1 := legalInRow_length_le b i (List.finRange 5)
    simp only [List.length_finRange] at h1
    have h2 : legalInRows b (i :: is) = legalInRow b i (List.finRange 5) ++ legalInRows b is := by
      simp [legalInRows]
    rw [h2, List.length_append, List.length_cons]
    omega

theorem legalMoves_length_le (b : Board) : (legalMoves b).length ≤ 25 := by
  have := legalInRows_length_le b (List.finRange 5)
  simpa [legalMoves] using this

theorem firstValid_some (b : Board) (ms : List Int) : ∃ o, firstValid b ms = some o := by
  induction ms with
  | nil => exact ⟨none, rfl⟩
  | cons m ms ih =>
    obtain ⟨v, hv, _⟩ := isMoveValid_decode b m
    rw [firstValid, hv]
    cases v
    · exact ih
    · exact ⟨some m, rfl⟩

theorem openingMove_some (b : Board) : ∃ o, openingMove b = some o := by
  obtain ⟨v, hv, _⟩ := isMoveValid_decode b 33
  obtain ⟨o, ho⟩ := firstValid_some b [11, 15, 51, 55]
  unfold openingMove
  simp only
  rw [hv, ho]
  split_ifs
  · cases v
    · exact ⟨_, rfl⟩
    · exact ⟨_, rfl⟩
  · exact ⟨_, rfl⟩

/-- The opening branch of `getBestMove` does not touch the board and the scan
restores it: on any search function whose calls return and restore the board,
`getBestMove` returns and leaves the board as it found it. -/
theorem getBestMoveWith_frame
    (search : Board → Int → Bool → Int → Int → Int → Option (Int × Board))
    (b : Board) (player depth : Int) (junk : Fin 25 → Int) (rnd : Nat)
    (val : Fin 5 × Fin 5 → Int)
    (hs : ∀ i j, b i j = 0 →
      search (b.set i j player) (depth - 1) false (3 - player) (-MAX_SCORE) MAX_SCORE
        = some (val (i, j), b.set i j player) ∧ -MAX_SCORE ≤ val (i, j)) :
    ∃ mv, getBestMoveWith search b player depth junk rnd = some (mv, b) := by
  obtain ⟨s, hscan, hinv⟩ := scanMoves_inv search b player depth junk val hs
  have hdraw : ∃ mv, drawMove s rnd = some (mv, b) := by
    obtain ⟨hb, hl, _, _, _, hcnt, _⟩ := hinv
    unfold drawMove
    by_cases hc : s.count > 0
    · rw [if_pos hc]
      have hlt : rnd % s.count < s.bestMoves.length := by
        have h1 : rnd % s.count < s.count := Nat.mod_lt _ hc
        have h2 : s.count ≤ (legalMoves b).length := by
          rw [hcnt]; exact List.length_filter_le _ _
        have h3 : (legalMoves b).length ≤ 25 := by
          have := legalMoves_length_le b
          exact this
        omega
      rw [List.get?_eq_get hlt]
      exact ⟨_, by rw [hb]⟩
    · rw [if_neg hc]
      exact ⟨-1, by rw [hb]⟩
  obtain ⟨o, ho⟩ := openingMove_some b
  unfold getBestMoveWith
  rw [ho, hscan]
  cases o
  · exact hdraw
  · exact ⟨_, rfl⟩

theorem pickCols_mono (search search1 : Board → Option (Int × Board))
    (hle : ∀ b1 r, search b1 = some r → search1 b1 = some r)
    (p : Int) (i : Fin 5) (js : List (Fin 5)) (s s1 : Pick)
    (h : pickCols search p i js s = some s1) :
    pickCols search1 p i js s = some s1 := by
  induction js generalizing s with
  | nil => exact h
  | cons j js ih =>
    rw [pickCols] at h ⊢
    simp only [isMoveValid_cell] at h ⊢
    by_cases h0 : s.board i j = 0
    · simp only [h0, decide_True] at h ⊢
      cases hc : search (s.board.set i j p) with
      | none => rw [hc] at h; exact absurd h (by simp)
      | some r =>
        rw [hc] at h
        rw [hle _ r hc]
        obtain ⟨v, bd⟩ := r
        simp only at h ⊢
        split_ifs at h ⊢
        · cases hw : writeAt s.bestMoves 0 (((i.val : Int) + 1) * 10 + ((j.val : Int) + 1)) with
          | none => rw [hw] at h; exact absurd h (by simp)
          | some bm => rw [hw] at h; exact ih _ h
        · cases hw : writeAt s.bestMoves s.count
              (((i.val : Int) + 1) * 10 + ((j.val : Int) + 1)) with
          | none => rw [hw] at h; exact absurd h (by simp)
          | some bm => rw [hw] at h; exact ih _ h
        · exact ih _ h
    · simp only [h0, decide_False] at h ⊢
      exact ih _ h

theorem pickRows_mono (search search1 : Board → Option (Int × Board))
    (hle : ∀ b1 r, search b1 = some r → search1 b1 = some r)
    (p : Int) (is : List (Fin 5)) (s s1 : Pick)
    (h : pickRows search p is s = some s1) :
    pickRows search1 p is s = some s1 := by
  induction is generalizing s with
  | nil => exact h
  | cons i is ih =>
    rw [pickRows] at h ⊢
    cases hc : pickCols search p i (List.finRange 5) s with
    | none => rw [hc] at h; exact absurd h (by simp)
    | some s2 =>
      rw [hc] at h
      rw [pickCols_mono search search1 hle p i _ s s2 hc]
      exact ih _ h

/-- A result of `getBestMove` does not change when more fuel is given. -/
theorem getBestMove_fuel_le (R : Rules) (fuel fuel1 : Nat) (hle : fuel ≤ fuel1) (b : Board)
    (player depth : Int) (junk : Fin 25 → Int) (rnd : Nat) (r : Int × Board)
    (h : getBestMove R fuel b player depth junk rnd = some r) :
    getBestMove R fuel1 b player depth junk rnd = some r := by
  unfold getBestMove getBestMoveWith at h ⊢
  cases ho : openingMove b with
  | none => rw [ho] at h; exact absurd h (by simp)
  | some o =>
    rw [ho] at h
    cases o with
    | some mv => exact h
    | none =>
      simp only at h ⊢
      unfold scanMoves at h ⊢
      cases hc : pickRows
          (fun b1 => minimax R fuel b1 (depth - 1) false (3 - player) (-MAX_SCORE) MAX_SCORE)
          player (List.finRange 5)
          { board := b, bestVal := -MAX_SCORE, bestMoves := List.ofFn junk, count := 0 } with
      | none => rw [hc] at h; exact absurd h (by simp)
      | some s =>
        rw [hc] at h
        rw [pickRows_mono _
          (fun b1 => minimax R fuel1 b1 (depth - 1) false (3 - player) (-MAX_SCORE) MAX_SCORE)
          (fun b1 r hr => minimax_fuel_le R fuel fuel1 hle b1 _ _ _ _ _ r hr) player _ _ s hc]
        exact h

theorem countEmptyCells_full (b : Board) (hfull : ∀ i j, b i j ≠ 0) : countEmptyCells b = 0 := by
  have inner : ∀ (i : Fin 5) (js : List (Fin 5)) (c : Nat),
      js.foldl (fun count j => if b i j = 0 then count + 1 else count) c = c := by
    intro i js
    induction js with
    | nil => intro c; rfl
    | cons j js ih => intro c; rw [List.foldl_cons, if_neg (hfull i j)]; exact ih c
  have outer : ∀ (is : List (Fin 5)) (c : Nat),
      is.foldl (fun count i =>
        (List.finRange 5).foldl (fun count j => if b i j = 0 then count + 1 else count) count) c
        = c := by
    intro is
    induction is with
    | nil => intro c; rfl
    | cons i is ih => intro c; rw [List.foldl_cons, inner]; exact ih c
  exact outer _ 0

theorem pickCols_full (search : Board → Option (Int × Board)) (p : Int) (i : Fin 5)
    (js : List (Fin 5)) (s : Pick) (hfull : ∀ i j, s.board i j ≠ 0) :
    pickCols search p i js s = some s := by
  induction js with
  | nil => rfl
  | cons j js ih => rw [pickCols_skip search p i j js s (hfull i j)]; exact ih

theorem pickRows_full (search : Board → Option (Int × Board)) (p : Int)
    (is : List (Fin 5)) (s : Pick) (hfull : ∀ i j, s.board i j ≠ 0) :
    pickRows search p is s = some s := by
  induction is with
  | nil => rfl
  | cons i is ih => rw [pickRows, pickCols_full search p i _ s hfull]; exact ih

theorem drawMove_spec (s : Pick) (b : Board) (L : List Int) (hb : s.board = b)
    (hpos : 0 < s.count) (htake : s.bestMoves.take s.count = L) (hlen : L.length = s.count)
    (rnd : Nat) :
    ∃ mv, s.bestMoves.get? (rnd % s.count) = some mv ∧ L.get? (rnd % s.count) = some mv ∧
      drawMove s rnd = some (mv, b) := by
  have hidx : rnd % s.count < s.count := Nat.mod_lt _ hpos
  have h1 : L.get? (rnd % s.count) = s.bestMoves.get? (rnd % s.count) := by
    rw [← htake, List.get?_eq_getElem?, List.get?_eq_getElem?, List.getElem?_take_of_lt hidx]
  have h2 : rnd % s.count < L.length := by omega
  refine ⟨L.get ⟨rnd % s.count, h2⟩, ?_, ?_, ?_⟩
  · rw [← h1, List.get?_eq_get h2]
  · rw [List.get?_eq_get h2]
  · unfold drawMove
    rw [if_pos hpos, ← h1, List.get?_eq_get h2, hb]

/-! ## The claims -/

/-- C1: `evaluateBoard(p)` decides by strict priority: `+1000000` if
`winCheck(p)`; otherwise `-1000000` if `winCheck(3 - p)`; otherwise `-1000000`
if `loseCheck(p)`; otherwise `+1000000` if `loseCheck(3 - p)`; otherwise
exactly `heuristicScore(p)`.  It holds for every board, every player and
every pair of oracles. -/
theorem evaluateBoard_priority (R : Rules) (b : Board) (p : Int) :
    (R.winCheck b p = true → evaluateBoard R b p = 1000000) ∧
    (R.winCheck b p = false → R.winCheck b (3 - p) = true → evaluateBoard R b p = -1000000) ∧
    (R.winCheck b p = false → R.winCheck b (3 - p) = false → R.loseCheck b p = true →
      evaluateBoard R b p = -1000000) ∧
    (R.winCheck b p = false → R.winCheck b (3 - p) = false → R.loseCheck b p = false →
      R.loseCheck b (3 - p) = true → evaluateBoard R b p = 1000000) ∧
    (R.winCheck b p = false → R.winCheck b (3 - p) = false → R.loseCheck b p = false →
      R.loseCheck b (3 - p) = false → evaluateBoard R b p = heuristicScore R b p) := by
  refine ⟨?_, ?_, ?_, ?_, ?_⟩ <;> intros <;> simp_all [evaluateBoard, MAX_SCORE]

/-- C2: for a player `p` in `{1, 2}`, `heuristicScore(p)` is
`10000 * F(p) - 15000 * F(3 - p) - 1000 * T(p) + 500 * T(3 - p)`, where `F`
counts the four-lines with exactly three cells of the player, exactly one empty
cell and no cell of the other player, and `T` counts the three-lines whose
cells all belong to the player; `countFours`, with its `break`, equals `F` and
`countThrees` equals `T`.  No assumption on the cells of the board is needed. -/
theorem heuristicScore_formula (R : Rules) (b : Board) (p : Int) (hp : p = 1 ∨ p = 2) :
    heuristicScore R b p =
      10000 * (specFours R b p : Int) - 15000 * (specFours R b (3 - p) : Int)
        - 1000 * (specThrees R b p : Int) + 500 * (specThrees R b (3 - p) : Int) ∧
    countFours R b p = specFours R b p ∧ countFours R b (3 - p) = specFours R b (3 - p) ∧
    countThrees R b p = specThrees R b p ∧ countThrees R b (3 - p) = specThrees R b (3 - p) := by
  have e1 := countFours_eq_spec R b p (by omega)
  have e2 := countFours_eq_spec R b (3 - p) (by omega)
  have e3 := countThrees_eq_spec R b p
  have e4 := countThrees_eq_spec R b (3 - p)
  refine ⟨?_, e1, e2, e3, e4⟩
  simp only [heuristicScore, e1, e2, e3, e4]
  ring

/-- Witness for C2 on a position with six stones. -/
theorem heuristicScore_formula_witness :
    ((1 : Int) = 1 ∨ (1 : Int) = 2) ∧
    countFours (sampleRules 1) midBoard 1 = specFours (sampleRules 1) midBoard 1 :=
  ⟨Or.inl rfl, (heuristicScore_formula (sampleRules 1) midBoard 1 (Or.inl rfl)).2.1⟩

/-- C3: for every integer `move`, `isMoveValid(move)` reads the board inside its
bounds only (the result is never `none`) and is true exactly when
`move = 10 * r + c` with `r`, `c` in `1..5` and `board[r - 1][c - 1]` empty;
so it is false for every out-of-range row or column and every occupied cell. -/
theorem isMoveValid_iff (b : Board) (move : Int) :
    ∃ v : Bool, isMoveValid b move = some v ∧
      (v = true ↔ ∃ r c : Int, 1 ≤ r ∧ r ≤ 5 ∧ 1 ≤ c ∧ c ≤ 5 ∧ move = 10 * r + c ∧
        b.read (r - 1) (c - 1) = some 0) := by
  obtain ⟨v, hv, hiff⟩ := isMoveValid_decode b move
  refine ⟨v, hv, hiff.trans ?_⟩
  constructor
  · rintro ⟨r, c, hm, h0⟩
    have hr := r.isLt
    have hc := c.isLt
    refine ⟨(r.val : Int) + 1, (c.val : Int) + 1, by omega, by omega, by omega, by omega, hm, ?_⟩
    have hrange : 0 ≤ (r.val : Int) + 1 - 1 ∧ (r.val : Int) + 1 - 1 < 5 ∧
        0 ≤ (c.val : Int) + 1 - 1 ∧ (c.val : Int) + 1 - 1 < 5 := by omega
    unfold Board.read
    rw [dif_pos hrange]
    have e1 : (⟨((r.val : Int) + 1 - 1).toNat, by omega⟩ : Fin 5) = r := by
      apply Fin.ext; simp only; omega
    have e2 : (⟨((c.val : Int) + 1 - 1).toNat, by omega⟩ : Fin 5) = c := by
      apply Fin.ext; simp only; omega
    rw [e1, e2, h0]
  · rintro ⟨r, c, hr1, hr2, hc1, hc2, hm, h0⟩
    have hrange : 0 ≤ r - 1 ∧ r - 1 < 5 ∧ 0 ≤ c - 1 ∧ c - 1 < 5 := by omega
    unfold Board.read at h0
    rw [dif_pos hrange] at h0
    refine ⟨⟨(r - 1).toNat, by omega⟩, ⟨(c - 1).toNat, by omega⟩, ?_, by simpa using h0⟩
    simp only
    omega

/-- C4: for every board, depth, maximizing flag and player to move,
`minimax(depth, maximizing, player, -1000000, +1000000)` returns, restores the
board, and its value is the value of the unpruned full minimax over the same
tree.  Fuel 52 is enough for every call on a 5x5 board. -/
theorem minimax_eq_minimaxFull (R : Rules) (fuel : Nat) (b : Board) (depth : Int) (m : Bool)
    (p : Int) (hfuel : 52 ≤ fuel) :
    ∃ v, minimax R fuel b depth m p (-1000000) 1000000 = some (v, b) ∧
      minimaxFull R fuel b depth m p = some v := by
  have hm := searchMeasure_le b p
  obtain ⟨v, hv, hv1, hv2⟩ := minimax_frame R fuel b depth m p (-MAX_SCORE) MAX_SCORE (by omega)
  obtain ⟨w, hw, hw1, hw2, hrel⟩ := minimax_related R fuel b depth m p (by omega)
  have := hrel (-MAX_SCORE) MAX_SCORE (le_refl _) (by simp [MAX_SCORE]) (le_refl _) v b hv
  have hvw : v = w := by
    unfold Related at this
    omega
  refine ⟨v, hv, ?_⟩
  rw [hw, hvw]

/-- Witness for C4: a search of depth 2 on a position with six stones. -/
theorem minimax_eq_minimaxFull_witness :
    52 ≤ 52 ∧ ∃ v, minimax (sampleRules 1) 52 midBoard 2 true 1 (-1000000) 1000000
        = some (v, midBoard) ∧
      minimaxFull (sampleRules 1) 52 midBoard 2 true 1 = some v :=
  ⟨by decide, minimax_eq_minimaxFull (sampleRules 1) 52 midBoard 2 true 1 (by decide)⟩

/-- C5: for every board and all arguments, `minimax` returns and the board after
the call is the board before it, and the same holds for `getBestMove`.  The
results do not depend on the fuel once it reaches 52, and any result obtained
with less fuel carries the unchanged board as well. -/
theorem board_restored (R : Rules) (b : Board) (depth : Int) (m : Bool) (p a be : Int)
    (player1 depth1 : Int) (junk : Fin 25 → Int) (rnd : Nat) :
    (∃ v, ∀ fuel, 52 ≤ fuel → minimax R fuel b depth m p a be = some (v, b)) ∧
    (∀ fuel r, minimax R fuel b depth m p a be = some r → r.2 = b) ∧
    (∃ mv, ∀ fuel, 52 ≤ fuel → getBestMove R fuel b player1 depth1 junk rnd = some (mv, b)) ∧
    (∀ fuel r, getBestMove R fuel b player1 depth1 junk rnd = some r → r.2 = b) := by
  have hm := searchMeasure_le b p
  obtain ⟨v, hv, _⟩ := minimax_frame R 52 b depth m p a be (by omega)
  obtain ⟨mv, hmv⟩ := getBestMoveWith_frame (minimax R 52) b player1 depth1 junk rnd
    (rootValue R 52 b player1 depth1)
    (fun i j _ => rootValue_spec R 52 b player1 depth1 (le_refl _) i j)
  refine ⟨⟨v, fun fuel hf => minimax_fuel_le R 52 fuel hf b depth m p a be _ hv⟩, ?_,
    ⟨mv, fun fuel hf => getBestMove_fuel_le R 52 fuel hf b player1 depth1 junk rnd _ hmv⟩, ?_⟩
  · intro fuel r hr
    have h1 := minimax_fuel_le R fuel (max fuel 52) (le_max_left _ _) b depth m p a be r hr
    have h2 := minimax_fuel_le R 52 (max fuel 52) (le_max_right _ _) b depth m p a be _ hv
    rw [h1] at h2
    simp only [Option.some.injEq] at h2
    rw [h2]
  · intro fuel r hr
    have h1 := getBestMove_fuel_le R fuel (max fuel 52) (le_max_left _ _) b player1 depth1
      junk rnd r hr
    have h2 := getBestMove_fuel_le R 52 (max fuel 52) (le_max_right _ _) b player1 depth1
      junk rnd _ hmv
    rw [h1] at h2
    simp only [Option.some.injEq] at h2
    rw [h2]

/-- C6: outside the opening branch (fewer than 24 empty cells) and with a legal
move on the board, the scan of `getBestMove` ends with `bestMoves[0..count)`
holding exactly the legal moves, in row-major order, whose value
`minimax(depth - 1, false, 3 - player, -1000000, +1000000)` after placing the
stone is maximal; `count` is positive; for every draw `rnd` the function
returns `bestMoves[rnd % count]`, which is one of the maximal moves; every
maximal move is returned for some draw; and a single maximal move is returned
for every draw.  The board is left unchanged. -/
theorem getBestMove_maximal (R : Rules) (fuel : Nat) (b : Board) (player depth : Int)
    (junk : Fin 25 → Int) (hfuel : 52 ≤ fuel) (hopen : countEmptyCells b < 24)
    (hlegal : ∃ i j, b i j = 0) :
    (∀ c ∈ legalMoves b,
      minimax R fuel (b.set c.1 c.2 player) (depth - 1) false (3 - player) (-1000000) 1000000
        = some (rootValue R fuel b player depth c, b.set c.1 c.2 player)) ∧
    ∃ s, scanMoves (minimax R fuel) b player depth junk = some s ∧
      0 < s.count ∧
      s.bestMoves.take s.count = (bestRootMoves R fuel b player depth).map encodeMove ∧
      (∀ rnd, ∃ mv, s.bestMoves.get? (rnd % s.count) = some mv ∧
        getBestMove R fuel b player depth junk rnd = some (mv, b)) ∧
      (∀ rnd, ∃ c ∈ bestRootMoves R fuel b player depth,
        getBestMove R fuel b player depth junk rnd = some (encodeMove c, b)) ∧
      (∀ c ∈ bestRootMoves R fuel b player depth, ∃ rnd,
        getBestMove R fuel b player depth junk rnd = some (encodeMove c, b)) ∧
      (∀ c, bestRootMoves R fuel b player depth = [c] → ∀ rnd,
        getBestMove R fuel b player depth junk rnd = some (encodeMove c, b)) := by
  have hs := fun i j (_ : b i j = 0) => rootValue_spec R fuel b player depth hfuel i j
  refine ⟨fun c _ => (rootValue_spec R fuel b player depth hfuel c.1 c.2).1, ?_⟩
  obtain ⟨s, hscan, hinv⟩ := scanMoves_inv (minimax R fuel) b player depth junk
    (rootValue R fuel b player depth) hs
  have hne : legalMoves b ≠ [] := by
    obtain ⟨i, j, h0⟩ := hlegal
    intro hnil
    have : (i, j) ∈ legalMoves b := (mem_legalMoves b (i, j)).2 h0
    rw [hnil] at this
    exact absurd this (List.not_mem_nil _)
  have hfilter := pickInv_filter_eq b _ s _ hinv hne
  obtain ⟨hb, hl, _, hle, hex, hcnt, htake⟩ := hinv
  rw [hfilter] at hcnt htake
  change s.count = (bestRootMoves R fuel b player depth).length at hcnt
  change s.bestMoves.take s.count = (bestRootMoves R fuel b player depth).map encodeMove at htake
  have hpos : 0 < s.count := by
    rcases hex with ⟨h1, _⟩ | ⟨c0, hc0, hv0⟩
    · exact absurd h1 hne
    · have hmem : c0 ∈ bestRootMoves R fuel b player depth := by
        unfold bestRootMoves
        rw [← hfilter, List.mem_filter]
        exact ⟨hc0, decide_eq_true hv0⟩
      rw [hcnt]
      exact List.length_pos_of_mem hmem
  have hopening : openingMove b = some none := by
    unfold openingMove
    simp only
    rw [if_neg (by omega)]
  have hget : ∀ rnd, getBestMove R fuel b player depth junk rnd = drawMove s rnd := by
    intro rnd
    unfold getBestMove getBestMoveWith
    rw [hopening, hscan]
  have hLlen : ((bestRootMoves R fuel b player depth).map encodeMove).length = s.count := by
    rw [List.length_map, hcnt]
  refine ⟨s, hscan, hpos, htake, ?_, ?_, ?_, ?_⟩
  · intro rnd
    obtain ⟨mv, h1, _, h3⟩ := drawMove_spec s b _ hb hpos htake hLlen rnd
    exact ⟨mv, h1, by rw [hget, h3]⟩
  · intro rnd
    obtain ⟨mv, _, h2, h3⟩ := drawMove_spec s b _ hb hpos htake hLlen rnd
    rw [List.get?_eq_getElem?, List.getElem?_map] at h2
    cases hc : (bestRootMoves R fuel b player depth)[rnd % s.count]? with
    | none => rw [hc] at h2; exact absurd h2 (by simp)
    | some c =>
      rw [hc] at h2
      simp only [Option.map_some', Option.some.injEq] at h2
      refine ⟨c, List.getElem?_mem hc, ?_⟩
      rw [hget, h3, h2]
  · intro c hc
    obtain ⟨n, hn, hcn⟩ := List.getElem_of_mem hc
    have hn2 : n < s.count := by omega
    refine ⟨n, ?_⟩
    obtain ⟨mv, _, h2, h3⟩ := drawMove_spec s b _ hb hpos htake hLlen n
    rw [Nat.mod_eq_of_lt hn2, List.get?_eq_getElem?, List.getElem?_map,
      List.getElem?_eq_getElem hn, hcn] at h2
    simp only [Option.map_some', Option.some.injEq] at h2
    rw [hget, h3, h2]
  · intro c hc rnd
    obtain ⟨mv, _, h2, h3⟩ := drawMove_spec s b _ hb hpos htake hLlen rnd
    have h1 : s.count = 1 := by rw [hcnt, hc]; rfl
    rw [h1, Nat.mod_one, hc] at h2
    simp only [List.map_cons, List.map_nil, List.get?_cons_zero, Option.some.injEq] at h2
    rw [hget, h3, h2]

/-- Witness for C6: the scan on a position with six stones. -/
theorem getBestMove_maximal_witness :
    52 ≤ 52 ∧ countEmptyCells midBoard < 24 ∧ (∃ i j, midBoard i j = 0) ∧
    ∀ c ∈ legalMoves midBoard,
      minimax (sampleRules 1) 52 (midBoard.set c.1 c.2 1) (1 - 1) false (3 - 1)
          (-1000000) 1000000
        = some (rootValue (sampleRules 1) 52 midBoard 1 1 c, midBoard.set c.1 c.2 1) :=
  ⟨by decide, by decide, ⟨0, 2, by decide⟩,
    (getBestMove_maximal (sampleRules 1) 52 midBoard 1 1 (fun _ => 0) (by decide) (by decide)
      ⟨0, 2, by decide⟩).1⟩

/-- C7: on a board with at least 24 empty cells whose centre cell is empty,
`getBestMove` returns 33 and leaves the board unchanged, for every player and
depth and whatever the search function is: the search is not consulted. -/
theorem getBestMove_opening_centre
    (search : Board → Int → Bool → Int → Int → Int → Option (Int × Board))
    (b : Board) (player depth : Int) (junk : Fin 25 → Int) (rnd : Nat)
    (h24 : 24 ≤ countEmptyCells b) (hcentre : b 2 2 = 0) :
    getBestMoveWith search b player depth junk rnd = some (33, b) := by
  have h33 : isMoveValid b 33 = some true := by
    have := isMoveValid_cell b 2 2
    simp only [hcentre, decide_True] at this
    rw [← this]
    rfl
  have ho : openingMove b = some (some 33) := by
    unfold openingMove
    simp only [h33]
    rw [if_pos h24]
  unfold getBestMoveWith
  rw [ho]

/-- Witness for C7: the empty board, with a search function that always fails. -/
theorem getBestMove_opening_centre_witness :
    24 ≤ countEmptyCells emptyBoard ∧ emptyBoard 2 2 = 0 ∧
    getBestMoveWith (fun _ _ _ _ _ _ => none) emptyBoard 1 4 (fun _ => 0) 7
      = some (33, emptyBoard) :=
  ⟨by decide, by decide,
    getBestMove_opening_centre (fun _ _ _ _ _ _ => none) emptyBoard 1 4 (fun _ => 0) 7
      (by decide) (by decide)⟩

/-- C8: on a board without an empty cell `getBestMove` returns the sentinel `-1`
and leaves the board unchanged, for every player and depth and whatever the
search function is: the search is not consulted. -/
theorem getBestMove_full_board
    (search : Board → Int → Bool → Int → Int → Int → Option (Int × Board))
    (b : Board) (player depth : Int) (junk : Fin 25 → Int) (rnd : Nat)
    (hfull : ∀ i j, b i j ≠ 0) :
    getBestMoveWith search b player depth junk rnd = some (-1, b) := by
  have ho : openingMove b = some none := by
    unfold openingMove
    simp only [countEmptyCells_full b hfull]
    rw [if_neg (by omega)]
  unfold getBestMoveWith
  rw [ho]
  simp only [scanMoves]
  rw [pickRows_full _ _ _ _ hfull]
  simp [drawMove]

/-- Witness for C8: a full board, with a search function that always fails. -/
theorem getBestMove_full_board_witness :
    (∀ i j, fullBoard i j ≠ 0) ∧
    getBestMoveWith (fun _ _ _ _ _ _ => none) fullBoard 2 3 (fun _ => 0) 5
      = some (-1, fullBoard) :=
  ⟨by decide,
    getBestMove_full_board (fun _ _ _ _ _ _ => none) fullBoard 2 3 (fun _ => 0) 5 (by decide)⟩

/-- C9: for every board and every player `p` in `{1, 2}`, `heuristicScore(p)`
lies in `[-468000, 304000]`, strictly between `-MAX_SCORE` and `MAX_SCORE`, so
it is never `+1000000` or `-1000000`; and every value computed on the way (the
opponent number, the four products and the four values of `score`, the last
of which is the result) fits a 32-bit `int`. -/
theorem heuristicScore_never_decisive (R : Rules) (b : Board) (p : Int) (hp : p = 1 ∨ p = 2) :
    -468000 ≤ heuristicScore R b p ∧ heuristicScore R b p ≤ 304000 ∧
    -MAX_SCORE < heuristicScore R b p ∧ heuristicScore R b p < MAX_SCORE ∧
    heuristicScore R b p ≠ 1000000 ∧ heuristicScore R b p ≠ -1000000 ∧
    (heuristicSteps R b p).getLast? = some (heuristicScore R b p) ∧
    ∀ x ∈ heuristicSteps R b p, -2147483648 ≤ x ∧ x ≤ 2147483647 := by
  have h1 := countFours_le R b p
  have h2 := countFours_le R b (3 - p)
  have h3 := countThrees_le R b p
  have h4 := countThrees_le R b (3 - p)
  have hb := heuristicScore_bounds R b p
  refine ⟨hb.1, hb.2.1, by unfold MAX_SCORE; omega, by unfold MAX_SCORE; omega, hb.2.2.1,
    hb.2.2.2, ?_, ?_⟩
  · simp [heuristicSteps, heuristicScore]
  · intro x hx
    simp only [heuristicSteps, List.mem_cons, List.mem_singleton, List.not_mem_nil,
      or_false] at hx
    rcases hx with h | h | h | h | h | h | h | h | h <;> omega

/-- Witness for C9: player 1 on a position with six stones. -/
theorem heuristicScore_never_decisive_witness :
    ((1 : Int) = 1 ∨ (1 : Int) = 2) ∧
    -468000 ≤ heuristicScore (sampleRules 1) midBoard 1 :=
  ⟨Or.inl rfl, (heuristicScore_never_decisive (sampleRules 1) midBoard 1 (Or.inl rfl)).1⟩

theorem countEmptyCells_eq_emptyCard (b : Board) : countEmptyCells b = emptyCard b := by
  have inner : ∀ (i : Fin 5) (c : Nat),
      (List.finRange 5).foldl (fun count j => if b i j = 0 then count + 1 else count) c
        = c + (Finset.univ.filter fun j : Fin 5 => b i j = 0).card := by
    intro i c
    rw [foldl_count (fun j : Fin 5 => b i j = 0), card_filter_fin]
  have hcard : emptyCard b = ∑ i : Fin 5, (Finset.univ.filter fun j : Fin 5 => b i j = 0).card := by
    unfold emptyCard
    simp only [Finset.card_filter]
    rw [Fintype.sum_prod_type]
  have hl : List.finRange 5 = [0, 1, 2, 3, 4] := by decide
  rw [hcard, Fin.sum_univ_five]
  unfold countEmptyCells
  simp only [inner]
  rw [hl]
  simp only [List.foldl_cons, List.foldl_nil]
  omega


/-- With at least 24 empty cells there is at most one stone on the board. -/
theorem one_stone_of_emptyCard (b : Board) (h24 : 24 ≤ emptyCard b) (i j i1 j1 : Fin 5)
    (h1 : b i j ≠ 0) (h2 : b i1 j1 ≠ 0) : (i, j) = (i1, j1) := by
  by_contra hne
  have hsub : (Finset.univ.filter fun x : Fin 5 × Fin 5 => b x.1 x.2 = 0) ⊆
      (Finset.univ.erase (i, j)).erase (i1, j1) := by
    intro x hx
    simp only [Finset.mem_filter, Finset.mem_univ, true_and] at hx
    simp only [Finset.mem_erase, Finset.mem_univ, and_true, ne_eq]
    constructor
    · intro hx1; rw [hx1] at hx; exact h2 hx
    · intro hx1; rw [hx1] at hx; exact h1 hx
  have hcard := Finset.card_le_card hsub
  have h3 : ((Finset.univ.erase (i, j)).erase (i1, j1)).card = 23 := by
    rw [Finset.card_erase_of_mem, Finset.card_erase_of_mem (Finset.mem_univ _)]
    · simp
    · simp only [Finset.mem_erase, Finset.mem_univ, and_true, ne_eq]
      exact fun h => hne h.symm
  unfold emptyCard at h24
  omega

theorem isMoveValid_11 (b : Board) : isMoveValid b 11 = some (decide (b 0 0 = 0)) :=
  isMoveValid_cell b 0 0

theorem isMoveValid_33 (b : Board) : isMoveValid b 33 = some (decide (b 2 2 = 0)) :=
  isMoveValid_cell b 2 2

/-- With at least 24 empty cells the opening branch returns 33 when the centre
is empty and 11 when it is not. -/
theorem openingMove_of_24 (b : Board) (h24 : 24 ≤ countEmptyCells b) :
    openingMove b = some (some (if b 2 2 = 0 then 33 else 11)) ∧ (b 2 2 ≠ 0 → b 0 0 = 0) := by
  have hcorner : b 2 2 ≠ 0 → b 0 0 = 0 := by
    intro hc
    by_contra h0
    have := one_stone_of_emptyCard b (by rw [← countEmptyCells_eq_emptyCard]; exact h24)
      2 2 0 0 hc h0
    exact absurd this (by decide)
  refine ⟨?_, hcorner⟩
  unfold openingMove
  simp only
  rw [if_pos h24, isMoveValid_33]
  by_cases hc : b 2 2 = 0
  · simp only [hc, decide_True, if_true]
  · simp only [hc, decide_False, if_false]
    rw [firstValid, isMoveValid_11]
    simp only [hcorner hc, decide_True]

theorem minimaxCols_full (child : Board → Int → Int → Option (Int × Board)) (m : Bool) (p : Int)
    (i : Fin 5) (js : List (Fin 5)) (s : Search) (hfull : ∀ i j, s.board i j ≠ 0) :
    minimaxCols child m p i js s = some s := by
  induction js with
  | nil => rfl
  | cons j js ih => rw [minimaxCols_skip child m p i j js s (hfull i j)]; exact ih

theorem minimaxRows_full (child : Board → Int → Int → Option (Int × Board)) (m : Bool) (p : Int)
    (is : List (Fin 5)) (s : Search) (hfull : ∀ i j, s.board i j ≠ 0) :
    minimaxRows child m p is s = some s := by
  induction is with
  | nil => rfl
  | cons i is ih => rw [minimaxRows, minimaxCols_full child m p i _ s hfull]; exact ih

/-- For players 1 and 2 every recursive call has one empty cell less, so fuel
above the number of empty cells is enough. -/
theorem minimax_frame_cells (R : Rules) (fuel : Nat) (b : Board) (depth : Int) (m : Bool)
    (p a be : Int) (hp : p = 1 ∨ p = 2) (hfuel : emptyCard b < fuel) :
    ∃ v, minimax R fuel b depth m p a be = some (v, b) ∧ -MAX_SCORE ≤ v ∧ v ≤ MAX_SCORE := by
  induction fuel generalizing b depth m p a be with
  | zero => omega
  | succ fuel ih =>
    by_cases hterm : depth = 0 ∨ R.winCheck b p = true ∨ R.loseCheck b p = true
        ∨ R.winCheck b (3 - p) = true ∨ R.loseCheck b (3 - p) = true
    · rw [minimax_terminal R fuel b depth m p a be hterm]
      exact ⟨_, rfl, evaluateBoard_range R b R.playerNumber⟩
    · have hchild : ChildFrame
          (fun b1 a1 be1 => minimax R fuel b1 (depth - 1) (!m) (3 - p) a1 be1) b p := by
        intro i j h0 a1 be1
        have := emptyCard_set b i j p h0 (by omega)
        exact ih (b.set i j p) (depth - 1) (!m) (3 - p) a1 be1 (by omega) (by omega)
      obtain ⟨s1, h1, hb1, hs1⟩ := minimaxRows_frame _ m p b hchild (List.finRange 5)
        ⟨b, if m then -MAX_SCORE else MAX_SCORE, a, be⟩ rfl
        (by simp only [MAX_SCORE]; split_ifs <;> omega)
      rw [minimax_inner R fuel b depth m p a be hterm, h1]
      exact ⟨s1.bestVal, by rw [Option.map_some', hb1], hs1⟩

/-- For a depth that is not negative, fuel above the depth is enough. -/
theorem minimax_frame_depth (R : Rules) (fuel : Nat) (b : Board) (depth : Int) (m : Bool)
    (p a be : Int) (hd : 0 ≤ depth) (hfuel : depth < fuel) :
    ∃ v, minimax R fuel b depth m p a be = some (v, b) ∧ -MAX_SCORE ≤ v ∧ v ≤ MAX_SCORE := by
  induction fuel generalizing b depth m p a be with
  | zero => omega
  | succ fuel ih =>
    by_cases hterm : depth = 0 ∨ R.winCheck b p = true ∨ R.loseCheck b p = true
        ∨ R.winCheck b (3 - p) = true ∨ R.loseCheck b (3 - p) = true
    · rw [minimax_terminal R fuel b depth m p a be hterm]
      exact ⟨_, rfl, evaluateBoard_range R b R.playerNumber⟩
    · have hd0 : depth ≠ 0 := fun h => hterm (Or.inl h)
      have hchild : ChildFrame
          (fun b1 a1 be1 => minimax R fuel b1 (depth - 1) (!m) (3 - p) a1 be1) b p := by
        intro i j h0 a1 be1
        exact ih (b.set i j p) (depth - 1) (!m) (3 - p) a1 be1 (by omega)
          (by push_cast at hfuel ⊢; omega)
      obtain ⟨s1, h1, hb1, hs1⟩ := minimaxRows_frame _ m p b hchild (List.finRange 5)
        ⟨b, if m then -MAX_SCORE else MAX_SCORE, a, be⟩ rfl
        (by simp only [MAX_SCORE]; split_ifs <;> omega)
      rw [minimax_inner R fuel b depth m p a be hterm, h1]
      exact ⟨s1.bestVal, by rw [Option.map_some', hb1], hs1⟩

theorem firstValid_valid (b : Board) (ms : List Int) (m : Int)
    (h : firstValid b ms = some (some m)) : isMoveValid b m = some true := by
  induction ms with
  | nil => simp [firstValid] at h
  | cons x ms ih =>
    rw [firstValid] at h
    obtain ⟨v, hv, _⟩ := isMoveValid_decode b x
    rw [hv] at h
    cases v
    · exact ih h
    · simp only [Option.some.injEq] at h
      rw [← h]; exact hv

theorem openingMove_valid (b : Board) (m : Int) (h : openingMove b = some (some m)) :
    isMoveValid b m = some true := by
  unfold openingMove at h
  simp only at h
  split_ifs at h
  · obtain ⟨v, hv, _⟩ := isMoveValid_decode b 33
    rw [hv] at h
    cases v
    · exact firstValid_valid b _ m h
    · simp only [Option.some.injEq] at h
      rw [← h]; exact hv
  · simp at h

theorem isMoveValid_encode (b : Board) (c : Fin 5 × Fin 5) (hc : c ∈ legalMoves b) :
    isMoveValid b (encodeMove c) = some true := by
  have h0 := (mem_legalMoves b c).1 hc
  unfold encodeMove
  rw [isMoveValid_cell, decide_eq_true h0]

/-- At the end of the scan on a board with a legal move, `count` is positive and
at most the number of legal moves, and every draw gives a legal move. -/
theorem scan_draw_legal (b : Board) (val : Fin 5 × Fin 5 → Int) (s : Pick)
    (hinv : PickInv b val s (legalMoves b)) (hne : legalMoves b ≠ []) :
    0 < s.count ∧ s.count ≤ (legalMoves b).length ∧ s.bestMoves.length = 25 ∧
    ((∀ c ∈ legalMoves b, val c = -MAX_SCORE) → s.count = (legalMoves b).length) ∧
    ∀ rnd, ∃ c ∈ legalMoves b, drawMove s rnd = some (encodeMove c, b) := by
  obtain ⟨hb, hl, hlo, hle, hex, hcnt, htake⟩ := hinv
  have hpos : 0 < s.count := by
    rcases hex with ⟨h1, _⟩ | ⟨c0, hc0, hv0⟩
    · exact absurd h1 hne
    · rw [hcnt]
      exact List.length_pos_of_mem (List.mem_filter.2 ⟨hc0, decide_eq_true hv0⟩)
  refine ⟨hpos, by rw [hcnt]; exact List.length_filter_le _ _, hl, ?_, ?_⟩
  · intro hall
    rcases hex with ⟨h1, _⟩ | ⟨c0, hc0, hv0⟩
    · exact absurd h1 hne
    · rw [hcnt]
      congr 1
      rw [List.filter_eq_self]
      intro c hc
      rw [decide_eq_true_eq, hall c hc, ← hv0, hall c0 hc0]
  · intro rnd
    obtain ⟨mv, _, h2, h3⟩ := drawMove_spec s b _ hb hpos htake
      (by rw [List.length_map, hcnt]) rnd
    rw [List.get?_eq_getElem?, List.getElem?_map] at h2
    cases hc : (List.filter (fun c => decide (val c = s.bestVal)) (legalMoves b))[rnd % s.count]?
      with
    | none => rw [hc] at h2; exact absurd h2 (by simp)
    | some c =>
      rw [hc] at h2
      simp only [Option.map_some', Option.some.injEq] at h2
      refine ⟨c, (List.mem_filter.1 (List.getElem?_mem hc)).1, ?_⟩
      rw [h3, h2]

theorem countThrees_zero (R : Rules) (b : Board) (q : Int)
    (h : ¬ ∃ i : Fin 48, ∀ j : Fin 3, b (R.lose i j).1 (R.lose i j).2 = q) :
    countThrees R b q = 0 := by
  rw [countThrees_eq_spec]
  unfold specThrees
  rw [Finset.card_eq_zero, Finset.filter_eq_empty_iff]
  intro i _ hi
  exact h ⟨i, hi⟩

/-! ## The claims, continued -/

/-- C11: whenever `depth == 0` or one of `winCheck(player)`, `loseCheck(player)`,
`winCheck(3 - player)`, `loseCheck(3 - player)` holds, `minimax` returns the
evaluation of the board for `playerNumber`, whatever `maximizing`, `alpha`,
`beta` and the `player` argument are; fuel 1 is enough, so no recursive call
is made and no stone is placed, and the board is returned as it was.
`playerNumber` is the player `main` invokes `getBestMove` for: in that
invocation the value obtained for a move `c` that leads to a terminal position
is the evaluation of that position for `playerNumber`. -/
theorem minimax_terminal_perspective (R : Rules) :
    (∀ (b : Board) (depth p : Int),
      (depth = 0 ∨ R.winCheck b p = true ∨ R.loseCheck b p = true
        ∨ R.winCheck b (3 - p) = true ∨ R.loseCheck b (3 - p) = true) →
      ∀ fuel m a be, 1 ≤ fuel →
        minimax R fuel b depth m p a be = some (evaluateBoard R b R.playerNumber, b)) ∧
    (∀ (b : Board) (depthOfSearch : Int) (c : Fin 5 × Fin 5),
      (depthOfSearch - 1 = 0
        ∨ R.winCheck (b.set c.1 c.2 R.playerNumber) (3 - R.playerNumber) = true
        ∨ R.loseCheck (b.set c.1 c.2 R.playerNumber) (3 - R.playerNumber) = true
        ∨ R.winCheck (b.set c.1 c.2 R.playerNumber) (3 - (3 - R.playerNumber)) = true
        ∨ R.loseCheck (b.set c.1 c.2 R.playerNumber) (3 - (3 - R.playerNumber)) = true) →
      ∀ fuel, 1 ≤ fuel →
        rootValue R fuel b R.playerNumber depthOfSearch c
          = evaluateBoard R (b.set c.1 c.2 R.playerNumber) R.playerNumber) := by
  have key : ∀ (b : Board) (depth p : Int),
      (depth = 0 ∨ R.winCheck b p = true ∨ R.loseCheck b p = true
        ∨ R.winCheck b (3 - p) = true ∨ R.loseCheck b (3 - p) = true) →
      ∀ fuel m a be, 1 ≤ fuel →
        minimax R fuel b depth m p a be = some (evaluateBoard R b R.playerNumber, b) := by
    intro b depth p hterm fuel m a be hf
    obtain ⟨n, rfl⟩ : ∃ n, fuel = n + 1 := ⟨fuel - 1, by omega⟩
    exact minimax_terminal R n b depth m p a be hterm
  refine ⟨key, ?_⟩
  intro b d c hterm fuel hf
  unfold rootValue
  rw [key _ _ _ hterm fuel false _ _ hf]

/-- C12: `minimax` terminates on every board, for every integer depth and all
other arguments, and so does `getBestMove`: fuel 52 is always enough and the
result does not depend on the fuel.  For a depth that is not negative, fuel
above the depth is enough.  For the players 1 and 2 every recursive call is
made with one empty cell less than its caller has, and fuel above the number
of empty cells is enough.  On a decisive position fuel 1 is enough: the call
returns without recursing. -/
theorem minimax_terminates (R : Rules) (b : Board) (depth : Int) (m : Bool) (p a be : Int) :
    (∃ r, ∀ fuel, 52 ≤ fuel → minimax R fuel b depth m p a be = some r) ∧
    (0 ≤ depth → ∀ fuel : Nat, depth < fuel → ∃ r, minimax R fuel b depth m p a be = some r) ∧
    (p = 1 ∨ p = 2 →
      (∀ i j, b i j = 0 → countEmptyCells (b.set i j p) + 1 = countEmptyCells b) ∧
      ∀ fuel, countEmptyCells b < fuel → ∃ r, minimax R fuel b depth m p a be = some r) ∧
    (R.winCheck b p = true ∨ R.loseCheck b p = true
        ∨ R.winCheck b (3 - p) = true ∨ R.loseCheck b (3 - p) = true →
      ∃ r, minimax R 1 b depth m p a be = some r) ∧
    (∀ player depth1 junk rnd, ∃ r, ∀ fuel, 52 ≤ fuel →
      getBestMove R fuel b player depth1 junk rnd = some r) := by
  have hm := searchMeasure_le b p
  refine ⟨?_, ?_, ?_, ?_, ?_⟩
  · obtain ⟨v, hv, _⟩ := minimax_frame R 52 b depth m p a be (by omega)
    exact ⟨_, fun fuel hf => minimax_fuel_le R 52 fuel hf b depth m p a be _ hv⟩
  · intro hd fuel hf
    obtain ⟨v, hv, _⟩ := minimax_frame_depth R fuel b depth m p a be hd hf
    exact ⟨_, hv⟩
  · intro hp
    refine ⟨?_, ?_⟩
    · intro i j h0
      rw [countEmptyCells_eq_emptyCard, countEmptyCells_eq_emptyCard]
      exact emptyCard_set b i j p h0 (by omega)
    · intro fuel hf
      rw [countEmptyCells_eq_emptyCard] at hf
      obtain ⟨v, hv, _⟩ := minimax_frame_cells R fuel b depth m p a be hp hf
      exact ⟨_, hv⟩
  · intro hdec
    exact ⟨_, minimax_terminal R 0 b depth m p a be (Or.inr hdec)⟩
  · intro player depth1 junk rnd
    obtain ⟨mv, hmv⟩ := getBestMoveWith_frame (minimax R 52) b player depth1 junk rnd
      (rootValue R 52 b player depth1)
      (fun i j _ => rootValue_spec R 52 b player depth1 (le_refl _) i j)
    exact ⟨_, fun fuel hf => getBestMove_fuel_le R 52 fuel hf b player depth1 junk rnd _ hmv⟩

/-- C13, evaluated at a failing input: `minimax(1, true, 1, -1000000, 0)` on
`cutBoard` with `playerNumber = 1`.  The first row ends with the cutoff
(`bestVal = alpha = 10000`, `beta = 0`) produced by the move 15.  The call
nevertheless returns `1000000`, the value of the move 43 in a later row: the
`break` leaves the column loop only.  A search function that fails on every
board with a stone of player 1 on row 4, column 3 makes the loops fail, so
that cell is placed and searched after the cutoff; one that fails on row 3,
column 4 changes nothing, because the move 33 of the same row comes first
and is followed by the `break`. -/
theorem minimax_cutoff_leaves_row_only :
    (minimaxCols (fun b1 a1 be1 => minimax (sampleRules 1) 1 b1 (1 - 1) (!true) (3 - 1) a1 be1)
        true 1 0 (List.finRange 5) ⟨cutBoard, -1000000, -1000000, 0⟩).map
      (fun s => (s.bestVal, s.alpha, s.beta)) = some (10000, 10000, 0) ∧
    (minimax (sampleRules 1) 2 cutBoard 1 true 1 (-1000000) 0).map Prod.fst = some 1000000 ∧
    (minimax (sampleRules 1) 1 (cutBoard.set 3 2 1) (1 - 1) (!true) (3 - 1) 10000 0).map Prod.fst
      = some 1000000 ∧
    (minimaxRows
        (fun b1 a1 be1 =>
          if b1 3 2 = 1 then none else minimax (sampleRules 1) 1 b1 (1 - 1) (!true) (3 - 1) a1 be1)
        true 1 (List.finRange 5) ⟨cutBoard, -1000000, -1000000, 0⟩).isNone = true ∧
    (minimaxRows
        (fun b1 a1 be1 =>
          if b1 2 3 = 1 then none else minimax (sampleRules 1) 1 b1 (1 - 1) (!true) (3 - 1) a1 be1)
        true 1 (List.finRange 5) ⟨cutBoard, -1000000, -1000000, 0⟩).map
      (fun s => s.bestVal) = some 1000000 := by
  refine ⟨by decide, by decide, by decide, by decide, by decide⟩

/-- C14: on a board without an empty cell on which none of the four checks
holds, `minimax` with a depth other than 0 returns the initial sentinel,
`-1000000` when maximizing and `+1000000` when minimizing, whatever `alpha`,
`beta` and the heuristic score of the board are. -/
theorem minimax_full_board_sentinel (R : Rules) (b : Board) (depth : Int) (m : Bool)
    (p a be : Int) (hfull : ∀ i j, b i j ≠ 0) (hd : depth ≠ 0)
    (hnone : R.winCheck b p = false ∧ R.loseCheck b p = false
        ∧ R.winCheck b (3 - p) = false ∧ R.loseCheck b (3 - p) = false) :
    ∀ fuel, 1 ≤ fuel →
      minimax R fuel b depth m p a be = some (if m then -1000000 else 1000000, b) := by
  intro fuel hf
  obtain ⟨n, rfl⟩ : ∃ n, fuel = n + 1 := ⟨fuel - 1, by omega⟩
  have hterm : ¬ (depth = 0 ∨ R.winCheck b p = true ∨ R.loseCheck b p = true
        ∨ R.winCheck b (3 - p) = true ∨ R.loseCheck b (3 - p) = true) := by
    obtain ⟨h1, h2, h3, h4⟩ := hnone
    simp [hd, h1, h2, h3, h4]
  rw [minimax_inner R n b depth m p a be hterm, minimaxRows_full _ _ _ _ _ hfull]
  cases m <;> simp [MAX_SCORE]

/-- Witness for C14: a full board without three in a line, searched with depth 3
for player 2 as the maximizing side. -/
theorem minimax_full_board_sentinel_witness :
    (∀ i j, drawBoard i j ≠ 0) ∧
    minimax (sampleRules 1) 1 drawBoard 3 true 2 (-5) 7 = some (-1000000, drawBoard) :=
  ⟨by decide,
    minimax_full_board_sentinel (sampleRules 1) drawBoard 3 true 2 (-5) 7 (by decide) (by decide)
      (by decide) 1 (le_refl _)⟩

/-- C15: on a board with at least 24 empty cells whose centre is occupied the
corner 11 is empty and `getBestMove` returns 11, for every player and depth
and whatever the search function is.  With at least 24 empty cells the
opening branch returns 33 or 11, so it never returns 15, 51 or 55 and never
falls through to the scan. -/
theorem getBestMove_opening_corner
    (search : Board → Int → Bool → Int → Int → Int → Option (Int × Board))
    (b : Board) (player depth : Int) (junk : Fin 25 → Int) (rnd : Nat)
    (h24 : 24 ≤ countEmptyCells b) :
    (b 2 2 ≠ 0 → b 0 0 = 0 ∧ isMoveValid b 11 = some true ∧
      firstValid b [11, 15, 51, 55] = some (some 11) ∧
      getBestMoveWith search b player depth junk rnd = some (11, b)) ∧
    (openingMove b = some (some 33) ∨ openingMove b = some (some 11)) := by
  obtain ⟨hopen, hcorner⟩ := openingMove_of_24 b h24
  refine ⟨?_, ?_⟩
  · intro hc
    have h0 := hcorner hc
    have h11 : isMoveValid b 11 = some true := by rw [isMoveValid_11, decide_eq_true h0]
    refine ⟨h0, h11, by rw [firstValid, h11], ?_⟩
    unfold getBestMoveWith
    rw [hopen, if_neg hc]
  · by_cases hc : b 2 2 = 0
    · left; rw [hopen, if_pos hc]
    · right; rw [hopen, if_neg hc]

/-- Witness for C15: a single stone, on the centre. -/
theorem getBestMove_opening_corner_witness :
    24 ≤ countEmptyCells centreBoard ∧ centreBoard 2 2 ≠ 0 ∧
    getBestMoveWith (fun _ _ _ _ _ _ => none) centreBoard 1 4 (fun _ => 0) 3
      = some (11, centreBoard) :=
  ⟨by decide, by decide,
    ((getBestMove_opening_corner (fun _ _ _ _ _ _ => none) centreBoard 1 4 (fun _ => 0) 3
      (by decide)).1 (by decide)).2.2.2⟩

/-- C16: on a board with an empty cell `getBestMove` returns, and what it
returns is not `-1` but a move `10 * r + c` with `r`, `c` in `1..5` whose cell
is empty on the board (so `isMoveValid` holds for it), for every player and
depth and also when every legal move is valued `-1000000` (then all of them
are collected).  The scan ends without any access outside `bestMoves[0..24]`,
with `count` positive and at most the number of legal moves, which is at
most 25. -/
theorem getBestMove_returns_legal (R : Rules) (fuel : Nat) (b : Board) (player depth : Int)
    (junk : Fin 25 → Int) (rnd : Nat) (hfuel : 52 ≤ fuel) (hlegal : ∃ i j, b i j = 0) :
    (∃ mv, getBestMove R fuel b player depth junk rnd = some (mv, b) ∧ mv ≠ -1 ∧
      isMoveValid b mv = some true ∧
      ∃ r c : Fin 5, mv = 10 * ((r.val : Int) + 1) + ((c.val : Int) + 1) ∧ b r c = 0) ∧
    ∃ s, scanMoves (minimax R fuel) b player depth junk = some s ∧
      0 < s.count ∧ s.count ≤ (legalMoves b).length ∧ (legalMoves b).length ≤ 25 ∧
      s.bestMoves.length = 25 ∧
      ((∀ c ∈ legalMoves b, rootValue R fuel b player depth c = -1000000) →
        s.count = (legalMoves b).length) := by
  have hs := fun i j (_ : b i j = 0) => rootValue_spec R fuel b player depth hfuel i j
  obtain ⟨s, hscan, hinv⟩ := scanMoves_inv (minimax R fuel) b player depth junk
    (rootValue R fuel b player depth) hs
  have hne : legalMoves b ≠ [] := by
    obtain ⟨i, j, h0⟩ := hlegal
    intro hnil
    have : (i, j) ∈ legalMoves b := (mem_legalMoves b (i, j)).2 h0
    rw [hnil] at this
    exact absurd this (List.not_mem_nil _)
  obtain ⟨hpos, hcnt, hlen, hall, hdraw⟩ := scan_draw_legal b _ s hinv hne
  have hvalid : ∃ mv, getBestMove R fuel b player depth junk rnd = some (mv, b) ∧
      isMoveValid b mv = some true := by
    obtain ⟨o, ho⟩ := openingMove_some b
    unfold getBestMove getBestMoveWith
    rw [ho, hscan]
    cases o with
    | some m => exact ⟨m, rfl, openingMove_valid b m ho⟩
    | none =>
      obtain ⟨c, hc, hd⟩ := hdraw rnd
      exact ⟨encodeMove c, hd, isMoveValid_encode b c hc⟩
  refine ⟨?_, s, hscan, hpos, hcnt, legalMoves_length_le b, hlen, hall⟩
  obtain ⟨mv, hmv, hval⟩ := hvalid
  obtain ⟨v, hv, hiff⟩ := isMoveValid_decode b mv
  rw [hval] at hv
  simp only [Option.some.injEq] at hv
  obtain ⟨r, c, hrc, h0⟩ := hiff.1 hv.symm
  refine ⟨mv, hmv, ?_, hval, r, c, hrc, h0⟩
  have := r.isLt
  have := c.isLt
  omega

/-- Witness for C16: a position with five empty cells. -/
theorem getBestMove_returns_legal_witness :
    52 ≤ 52 ∧ (∃ i j, cutBoard i j = 0) ∧
    ∃ mv, getBestMove (sampleRules 1) 52 cutBoard 1 2 (fun _ => 0) 4 = some (mv, cutBoard) ∧
      mv ≠ -1 ∧ isMoveValid cutBoard mv = some true ∧
      ∃ r c : Fin 5, mv = 10 * ((r.val : Int) + 1) + ((c.val : Int) + 1) ∧ cutBoard r c = 0 :=
  ⟨by decide, ⟨0, 4, by decide⟩,
    (getBestMove_returns_legal (sampleRules 1) 52 cutBoard 1 2 (fun _ => 0) 4 (by decide)
      ⟨0, 4, by decide⟩).1⟩

/-- C17: for every board and all arguments, windows with `alpha >= beta`
included, `minimax` returns a value in `[-1000000, +1000000]`, with whatever fuel
it returns; the same bound holds for `evaluateBoard`. -/
theorem minimax_value_range (R : Rules) (b : Board) (depth : Int) (m : Bool) (p a be : Int) :
    (∃ v, (∀ fuel, 52 ≤ fuel → minimax R fuel b depth m p a be = some (v, b)) ∧
      -1000000 ≤ v ∧ v ≤ 1000000) ∧
    (∀ fuel r, minimax R fuel b depth m p a be = some r → -1000000 ≤ r.1 ∧ r.1 ≤ 1000000) ∧
    (∀ q, -1000000 ≤ evaluateBoard R b q ∧ evaluateBoard R b q ≤ 1000000) := by
  have hm := searchMeasure_le b p
  obtain ⟨v, hv, hv1, hv2⟩ := minimax_frame R 52 b depth m p a be (by omega)
  unfold MAX_SCORE at hv1 hv2
  refine ⟨⟨v, fun fuel hf => minimax_fuel_le R 52 fuel hf b depth m p a be _ hv, hv1, hv2⟩,
    ?_, ?_⟩
  · intro fuel r hr
    have h1 := minimax_fuel_le R fuel (max fuel 52) (le_max_left _ _) b depth m p a be r hr
    have h2 := minimax_fuel_le R 52 (max fuel 52) (le_max_right _ _) b depth m p a be _ hv
    rw [h1] at h2
    simp only [Option.some.injEq] at h2
    rw [h2]
    exact ⟨hv1, hv2⟩
  · intro q
    have := evaluateBoard_range R b q
    unfold MAX_SCORE at this
    exact this

/-- C18: for a player `p` in `{1, 2}`, `heuristicScore(p) + heuristicScore(3 - p)`
is `-5000 * (countFours(1) + countFours(2)) - 500 * (countThrees(1) + countThrees(2))`;
it is never positive, and it is 0 exactly when the four counts are 0. -/
theorem heuristicScore_sum (R : Rules) (b : Board) (p : Int) (hp : p = 1 ∨ p = 2) :
    heuristicScore R b p + heuristicScore R b (3 - p) =
      -5000 * ((countFours R b 1 : Int) + (countFours R b 2 : Int))
        - 500 * ((countThrees R b 1 : Int) + (countThrees R b 2 : Int)) ∧
    heuristicScore R b p + heuristicScore R b (3 - p) ≤ 0 ∧
    (heuristicScore R b p + heuristicScore R b (3 - p) = 0 ↔
      countFours R b 1 = 0 ∧ countFours R b 2 = 0 ∧
      countThrees R b 1 = 0 ∧ countThrees R b 2 = 0) := by
  have key : ∀ q : Int, heuristicScore R b q =
      (countFours R b q : Int) * 10000 - (countFours R b (3 - q) : Int) * 15000
        - (countThrees R b q : Int) * 1000 + (countThrees R b (3 - q) : Int) * 500 := by
    intro q; simp [heuristicScore]
  rcases hp with rfl | rfl
  · rw [key 1, key (3 - 1)]
    norm_num
    constructor
    · ring
    · constructor <;> omega
  · rw [key 2, key (3 - 2)]
    norm_num
    constructor
    · ring
    · constructor <;> omega

/-- Witness for C18: player 1 on a position with five empty cells. -/
theorem heuristicScore_sum_witness :
    ((1 : Int) = 1 ∨ (1 : Int) = 2) ∧
    heuristicScore (sampleRules 1) cutBoard 1 + heuristicScore (sampleRules 1) cutBoard (3 - 1)
      ≤ 0 :=
  ⟨Or.inl rfl, (heuristicScore_sum (sampleRules 1) cutBoard 1 (Or.inl rfl)).2.1⟩

/-- C19: if `loseCheck(q)` holds exactly when some three-line of the table `lose`
is fully occupied by `q`, then where `evaluateBoard(p)` reaches its heuristic
branch both `countThrees(p)` and `countThrees(3 - p)` are 0 and the value is
`10000 * countFours(p) - 15000 * countFours(3 - p)`; hence every value of
`evaluateBoard` is `+1000000`, `-1000000`, or a multiple of 5000 in
`[-420000, 280000]`. -/
theorem evaluateBoard_values (R : Rules) (b : Board) (p : Int)
    (hlose : ∀ (b1 : Board) (q : Int), R.loseCheck b1 q = true ↔
      ∃ i : Fin 48, ∀ j : Fin 3, b1 (R.lose i j).1 (R.lose i j).2 = q) :
    (R.winCheck b p = false → R.winCheck b (3 - p) = false → R.loseCheck b p = false →
      R.loseCheck b (3 - p) = false →
      countThrees R b p = 0 ∧ countThrees R b (3 - p) = 0 ∧
      evaluateBoard R b p =
        10000 * (countFours R b p : Int) - 15000 * (countFours R b (3 - p) : Int)) ∧
    (evaluateBoard R b p = 1000000 ∨ evaluateBoard R b p = -1000000 ∨
      (5000 ∣ evaluateBoard R b p ∧ -420000 ≤ evaluateBoard R b p ∧
        evaluateBoard R b p ≤ 280000)) := by
  have hbranch : R.winCheck b p = false → R.winCheck b (3 - p) = false →
      R.loseCheck b p = false → R.loseCheck b (3 - p) = false →
      countThrees R b p = 0 ∧ countThrees R b (3 - p) = 0 ∧
      evaluateBoard R b p =
        10000 * (countFours R b p : Int) - 15000 * (countFours R b (3 - p) : Int) := by
    intro h1 h2 h3 h4
    have t1 : countThrees R b p = 0 :=
      countThrees_zero R b p (fun h => by rw [← hlose, h3] at h; exact absurd h (by simp))
    have t2 : countThrees R b (3 - p) = 0 :=
      countThrees_zero R b (3 - p) (fun h => by rw [← hlose, h4] at h; exact absurd h (by simp))
    refine ⟨t1, t2, ?_⟩
    simp [evaluateBoard, heuristicScore, h1, h2, h3, h4, t1, t2]
    ring
  refine ⟨hbranch, ?_⟩
  by_cases h1 : R.winCheck b p = true
  · left; simp [evaluateBoard, h1, MAX_SCORE]
  · by_cases h2 : R.winCheck b (3 - p) = true
    · right; left; simp [evaluateBoard, h1, h2, MAX_SCORE]
    · by_cases h3 : R.loseCheck b p = true
      · right; left; simp [evaluateBoard, h1, h2, h3, MAX_SCORE]
      · by_cases h4 : R.loseCheck b (3 - p) = true
        · left; simp [evaluateBoard, h1, h2, h3, h4, MAX_SCORE]
        · right; right
          simp only [Bool.not_eq_true] at h1 h2 h3 h4
          obtain ⟨_, _, he⟩ := hbranch h1 h2 h3 h4
          have c1 := countFours_le R b p
          have c2 := countFours_le R b (3 - p)
          rw [he]
          refine ⟨⟨2 * (countFours R b p : Int) - 3 * (countFours R b (3 - p) : Int), by ring⟩,
            by omega, by omega⟩

theorem sampleRules_loseCheck (me : Int) (b1 : Board) (q : Int) :
    (sampleRules me).loseCheck b1 q = true ↔
      ∃ i : Fin 48, ∀ j : Fin 3,
        b1 ((sampleRules me).lose i j).1 ((sampleRules me).lose i j).2 = q := by
  simp [sampleRules, List.any_eq_true, List.all_eq_true]

/-- Witness for C19: the ruleset of the examples, on a position that reaches the
heuristic branch. -/
theorem evaluateBoard_values_witness :
    (∀ (b1 : Board) (q : Int), (sampleRules 1).loseCheck b1 q = true ↔
      ∃ i : Fin 48, ∀ j : Fin 3,
        b1 ((sampleRules 1).lose i j).1 ((sampleRules 1).lose i j).2 = q) ∧
    (evaluateBoard (sampleRules 1) cutBoard 1 = 1000000 ∨
      evaluateBoard (sampleRules 1) cutBoard 1 = -1000000 ∨
      (5000 ∣ evaluateBoard (sampleRules 1) cutBoard 1 ∧
        -420000 ≤ evaluateBoard (sampleRules 1) cutBoard 1 ∧
        evaluateBoard (sampleRules 1) cutBoard 1 ≤ 280000)) :=
  ⟨sampleRules_loseCheck 1,
    (evaluateBoard_values (sampleRules 1) cutBoard 1 (sampleRules_loseCheck 1)).2⟩

end WSI
